import Mathlib

/-!
# zoekt `index.go`: query planning and candidate generation

A shallow embedding of `index.go` (package `zoekt`) and theorems about it.

Conventions of the embedding.

* Go strings and byte slices are lists of byte values (`List Nat`).
* `uint32` values are natural numbers; every `uint32` conversion and every
  `uint32` subtraction or addition of the source is written with an explicit
  `% 2 ^ 32`.
* A run-time panic of the Go code (slice or index out of range, `make` with a
  negative length) is the result `none`.
* The reader behind `data.reader` is mutable state: functions that use it take
  the reader and return the reader they leave behind, together with the list of
  sections they asked it for.
* Code that `index.go` calls but does not define (`strings.ToLower`, `toLower`,
  `stringToNGram`, `fromDeltas`, `reader.readSectionBlob`) is a field of `Env`;
  the theorems hold for every `Env`.
-/

namespace Zoekt

/-! ## Constants and Go primitives -/

/-- Modelled from the spec: the constant `ngramSize` is declared outside `index.go`;
the spec fixes the n-gram width at 3 bytes. -/
def ngramSize : Nat := 3

/-- The constant `maxUInt32 = 0xffffffff` of `index.go`. -/
def maxUInt32 : Nat := 0xffffffff

/-- The Go conversion `uint32(n)` of a non-negative integer. -/
def u32 (n : Nat) : Nat := n % 2 ^ 32

/-- The Go `uint32` subtraction `a - b` (wraps around below zero). -/
def subU32 (a b : Nat) : Nat := (a + 2 ^ 32 - b) % 2 ^ 32

/-- The Go `uint32` addition `a + b` (wraps around). -/
def addU32 (a b : Nat) : Nat := (a + b) % 2 ^ 32

/-- The Go slice expression `s[lo:hi]` on a string, or on a slice whose capacity
equals its length: it panics unless `lo ≤ hi ≤ len(s)`. -/
def goSlice {α : Type} (s : List α) (lo hi : Nat) : Option (List α) :=
  if lo ≤ hi ∧ hi ≤ s.length then some ((s.drop lo).take (hi - lo)) else none

/-- The Go index expression `s[i]`: it panics unless `i < len(s)`. -/
def goIndex {α : Type} (s : List α) (i : Nat) : Option α := s.get? i

/-! ## Data model -/

/-- An n-gram key (`type ngram`, an integer). -/
abbrev ngram := Nat

/-- The type `simpleSection`: two `uint32` fields. -/
structure simpleSection where
  off : Nat
  sz : Nat
  isU32 : off < 2 ^ 32 ∧ sz < 2 ^ 32
deriving DecidableEq

/-- The zero value of `simpleSection`, which a Go map lookup gives for an absent key. -/
def simpleSection.zero : simpleSection := ⟨0, 0, by decide⟩

/-- The type `query.Substring`. -/
structure query.Substring where
  Pattern : List Nat
  CaseSensitive : Bool
  FileName : Bool
deriving DecidableEq

/-- The type `candidateMatch`, with the fields `index.go` fills in. -/
structure candidateMatch where
  caseSensitive : Bool
  fileName : Bool
  substrBytes : List Nat
  substrLowered : List Nat
  file : Nat
  offset : Nat
  matchSz : Nat
deriving DecidableEq

/-- The type `ngramDocIterator`, with the fields `index.go` fills in. A `nil`
slice is the empty list; unset numeric fields are 0 and an unset flag is false. -/
structure ngramDocIterator where
  query : query.Substring
  leftPad : Nat
  rightPad : Nat
  distance : Nat
  first : List Nat
  last : List Nat
  ends : List Nat
  _coversContent : Bool
deriving DecidableEq

/-- The type `bruteForceIter`. -/
structure bruteForceIter where
  cands : List candidateMatch
deriving DecidableEq

/-- The interface `docIterator` with its two implementations. -/
inductive docIterator where
  | bruteForce (i : bruteForceIter)
  | ngramDoc (i : ngramDocIterator)
deriving DecidableEq

/-- The fields of `indexData` that `index.go` reads. A Go map is a lookup
function; the reader is passed separately because it is mutable. -/
structure indexData where
  ngrams : ngram → Option simpleSection
  fileEnds : List Nat
  fileNameContent : List Nat
  fileNameIndex : List Nat
  fileNameNgrams : ngram → Option (List Nat)

/-- The Go map lookup `data.ngrams[g]`: the zero value for an absent key. -/
def indexData.ngramsAt (data : indexData) (g : ngram) : simpleSection :=
  (data.ngrams g).getD simpleSection.zero

/-- The Go map lookup `data.fileNameNgrams[g]`: `nil` for an absent key. -/
def indexData.fileNameNgramsAt (data : indexData) (g : ngram) : List Nat :=
  (data.fileNameNgrams g).getD []

/-- A Go `error` value. -/
inductive GoError where
  | patternTooShort (pattern : List Nat) (n : Nat)
  | other (msg : String)
deriving DecidableEq

/-- The type `reader`: the underlying index file and the sticky error field. -/
structure reader (φ : Type) where
  r : φ
  err : Option GoError

/-- The functions `index.go` calls and does not define. -/
structure Env (φ : Type) where
  /-- Go's `strings.ToLower`. -/
  stringsToLower : List Nat → List Nat
  /-- The package's `toLower` on byte slices. -/
  toLower : List Nat → List Nat
  /-- The package's `stringToNGram`. -/
  stringToNGram : List Nat → ngram
  /-- The package's `fromDeltas`. -/
  fromDeltas : List Nat → List Nat
  /-- The method `reader.readSectionBlob`: the blob and the reader afterwards. -/
  readSectionBlob : reader φ → simpleSection → List Nat × reader φ

/-- What a call that returns `(docIterator, error)` leaves behind: the two
results, the reader afterwards, and the sections it read, in order. -/
structure Outcome (φ : Type) where
  it : Option docIterator
  err : Option GoError
  rd : reader φ
  reads : List simpleSection

/-! ## `minarg` -/

/-- The loop of `minarg`: `i` is the index of the next element, `m` the least
value so far and `j` the index recorded for it. -/
def minargLoop : List Nat → Nat → Nat → Nat → Nat
  | [], _, _, j => j
  | x :: xs, i, m, j =>
    if x ≤ m then minargLoop xs (i + 1) x i else minargLoop xs (i + 1) m j

/-- The function `minarg`. -/
def minarg (xs : List Nat) : Nat :=
  u32 (minargLoop xs 0 maxUInt32 xs.length)

/-! ## `getContentDocIterator` -/

/-- What the frequency loop of `getContentDocIterator` ends with: it met a
zero frequency and returned early, or it filled the table. -/
inductive FreqScan where
  | zero
  | table (frequencies : List Nat)
deriving DecidableEq

/-- The frequency loop of `getContentDocIterator` over the positions
`i, i+1, ..., i+n-1`. -/
def frequencyLoop {φ : Type} (env : Env φ) (data : indexData) (str : List Nat) :
    Nat → Nat → Option FreqScan
  | 0, _ => some (.table [])
  | n + 1, i =>
    match goSlice str i (i + ngramSize) with
    | none => none
    | some g =>
      let f := (data.ngramsAt (env.stringToNGram g)).sz
      if f = 0 then some .zero
      else
        match frequencyLoop env data str n (i + 1) with
        | none => none
        | some .zero => some .zero
        | some (.table fs) => some (.table (f :: fs))

/-- The allocation `make([]uint32, len(str)-ngramSize+1)` (a panic when the
length is negative) followed by the frequency loop. -/
def frequencyScan {φ : Type} (env : Env φ) (data : indexData) (str : List Nat) :
    Option FreqScan :=
  if str.length + 1 < ngramSize then none
  else frequencyLoop env data str (str.length + 1 - ngramSize) 0

/-- The selection of `getContentDocIterator`: the two calls of `minarg` around the
write `frequencies[firstI] = maxUInt32`, before the swap. -/
def selectNgrams (frequencies : List Nat) : Option (Nat × Nat) :=
  let firstI := minarg frequencies
  if firstI < frequencies.length then
    some (firstI, minarg (frequencies.set firstI maxUInt32))
  else none

/-- The swap `if firstI > lastI { lastI, firstI = firstI, lastI }`. -/
def swapSelected (p : Nat × Nat) : Nat × Nat :=
  if p.1 > p.2 then (p.2, p.1) else p

/-- The last statement of `getContentDocIterator` before it returns:
`if lastI-firstI <= ngramSize && input.leftPad == 0 && input.rightPad == 0`
then `input._coversContent = true`. -/
def markCoversContent (firstI lastI : Nat) (input : ngramDocIterator) : ngramDocIterator :=
  if subU32 lastI firstI ≤ ngramSize ∧ input.leftPad = 0 ∧ input.rightPad = 0 then
    { input with _coversContent := true }
  else input

/-- The second half of `getContentDocIterator`, from the two map lookups
`first := ...` and `last := ...` to the final `return`, for the selected
positions `firstI` and `lastI` (after the swap) and the lower-cased pattern `str`. -/
def readSelected {φ : Type} (env : Env φ) (data : indexData) (rd : reader φ)
    (query : query.Substring) (str : List Nat) (firstI lastI : Nat) : Option (Outcome φ) :=
  match goSlice str firstI (addU32 firstI ngramSize),
        goSlice str lastI (addU32 lastI ngramSize) with
  | some g1, some g2 =>
    let first := data.ngramsAt (env.stringToNGram g1)
    let last := data.ngramsAt (env.stringToNGram g2)
    let input : ngramDocIterator :=
      { query := query, ends := data.fileEnds, first := [], last := [], _coversContent := false,
        distance := subU32 lastI firstI,
        leftPad := firstI,
        rightPad := subU32 (u32 (str.length - ngramSize)) lastI }
    let r1 := env.readSectionBlob rd first
    let input := { input with first := env.fromDeltas r1.1 }
    if r1.2.err ≠ none then
      some { it := none, err := r1.2.err, rd := r1.2, reads := [first] }
    else if firstI ≠ lastI then
      let r2 := env.readSectionBlob r1.2 last
      let input := { input with last := env.fromDeltas r2.1 }
      if r2.2.err ≠ none then
        some { it := none, err := r2.2.err, rd := r2.2, reads := [first, last] }
      else
        some { it := some (.ngramDoc (markCoversContent firstI lastI input)), err := none,
               rd := r2.2, reads := [first, last] }
    else
      let input := { input with last := input.first }
      some { it := some (.ngramDoc (markCoversContent firstI lastI input)), err := none,
             rd := r1.2, reads := [first] }
  | _, _ => none

/-- The function `getContentDocIterator`. -/
def getContentDocIterator {φ : Type} (env : Env φ) (data : indexData) (rd : reader φ)
    (query : query.Substring) : Option (Outcome φ) :=
  let str := env.stringsToLower query.Pattern
  let input : ngramDocIterator :=
    { query := query, leftPad := 0, rightPad := 0, distance := 0,
      first := [], last := [], ends := data.fileEnds, _coversContent := false }
  match frequencyScan env data str with
  | none => none
  | some .zero => some { it := some (.ngramDoc input), err := none, rd := rd, reads := [] }
  | some (.table frequencies) =>
    match selectNgrams frequencies with
    | none => none
    | some sel =>
      readSelected env data rd query str (swapSelected sel).1 (swapSelected sel).2

/-! ## Filename search -/

/-- Whether the byte string `s` starts with `sep`. -/
def startsWith : List Nat → List Nat → Bool
  | _, [] => true
  | [], _ :: _ => false
  | a :: s, b :: sep => a == b && startsWith s sep

/-- Go's `bytes.Index(s, sep)`: the index of the first instance of `sep` in
`s`, or -1 when there is none. -/
def bytesIndex : List Nat → List Nat → Int
  | [], sep => if startsWith [] sep then 0 else -1
  | c :: s, sep =>
    if startsWith (c :: s) sep then 0
    else if bytesIndex s sep = -1 then -1 else bytesIndex s sep + 1

/-- The loop of `getBruteForceFileNameDocIterator` over the remaining offsets of
`data.fileNameIndex[1:]`: `i` is the loop index, `last` the previous offset and
`cands` the candidates appended so far. -/
def bruteForceLoop (data : indexData) (query : query.Substring) (lowerStr : List Nat) :
    List Nat → Nat → Nat → List candidateMatch → Option (List candidateMatch)
  | [], _, _, cands => some cands
  | off :: offs, i, last, cands =>
    match goSlice data.fileNameContent last off with
    | none => none
    | some name =>
      let idx := bytesIndex name lowerStr
      if idx = -1 then bruteForceLoop data query lowerStr offs (i + 1) off cands
      else
        bruteForceLoop data query lowerStr offs (i + 1) off
          (cands ++ [{ caseSensitive := query.CaseSensitive,
                       fileName := true,
                       substrBytes := query.Pattern,
                       substrLowered := lowerStr,
                       file := u32 i,
                       offset := u32 idx.toNat,
                       matchSz := u32 lowerStr.length }])

/-- The function `getBruteForceFileNameDocIterator`. -/
def getBruteForceFileNameDocIterator {φ : Type} (env : Env φ) (data : indexData)
    (query : query.Substring) : Option docIterator :=
  let lowerStr := env.toLower query.Pattern
  match goSlice data.fileNameIndex 1 data.fileNameIndex.length with
  | none => none
  | some offs =>
    match bruteForceLoop data query lowerStr offs 0 0 [] with
    | none => none
    | some cands => some (.bruteForce { cands := cands })

/-- The function `getFileNameDocIterator`. The fields of the struct literal are
evaluated in the order they are written. -/
def getFileNameDocIterator {φ : Type} (env : Env φ) (data : indexData)
    (query : query.Substring) : Option docIterator :=
  if query.Pattern.length < ngramSize then getBruteForceFileNameDocIterator env data query
  else
    let str := env.stringsToLower query.Pattern
    match goSlice data.fileNameIndex 1 data.fileNameIndex.length,
          goSlice str 0 ngramSize,
          (if str.length < ngramSize then none else goSlice str (str.length - ngramSize) str.length) with
    | some ends, some g1, some g2 =>
      some (.ngramDoc
        { query := query, leftPad := 0, rightPad := 0,
          distance := subU32 (u32 str.length) ngramSize,
          ends := ends,
          first := data.fileNameNgramsAt (env.stringToNGram g1),
          last := data.fileNameNgramsAt (env.stringToNGram g2),
          _coversContent := false })
    | _, _, _ => none

/-- The function `getDocIterator`. -/
def getDocIterator {φ : Type} (env : Env φ) (data : indexData) (rd : reader φ)
    (query : query.Substring) : Option (Outcome φ) :=
  if query.FileName then
    match getFileNameDocIterator env data query with
    | none => none
    | some it => some { it := some it, err := none, rd := rd, reads := [] }
  else if query.Pattern.length < ngramSize then
    some { it := none, err := some (.patternTooShort query.Pattern ngramSize), rd := rd, reads := [] }
  else getContentDocIterator env data rd query

/-- The method `bruteForceIter.next`: the returned batch and the iterator
afterwards (the receiver is a pointer; the method assigns nothing). -/
def bruteForceIter.next (i : bruteForceIter) : List candidateMatch × bruteForceIter :=
  (i.cands, i)

/-- The method `bruteForceIter.coversContent`. -/
def bruteForceIter.coversContent (_i : bruteForceIter) : Bool := true

/-- The results of `k` successive calls of `next` on one iterator, first call first. -/
def bruteForceIter.nextCalls : Nat → bruteForceIter → List (List candidateMatch)
  | 0, _ => []
  | k + 1, i => (bruteForceIter.next i).1 :: bruteForceIter.nextCalls k (bruteForceIter.next i).2

/-- The method `indexData.fileName`; the index `i + 1` is computed in `uint32`. -/
def indexData.fileName (d : indexData) (i : Nat) : Option (List Nat) :=
  match goIndex d.fileNameIndex i, goIndex d.fileNameIndex (addU32 i 1) with
  | some lo, some hi => goSlice d.fileNameContent lo hi
  | _, _ => none

/-- Modelled from the spec: the method `ngramDocIterator.next` is not in `index.go`.
By spec 4.4 it emits a candidate wherever a position `a` of the first list
and a position `b` of the second list satisfy `b - a == distance`; the pattern
then starts at `a - leftPad`, an offset that is mapped to the file index and
the offset within that file through the end boundaries; the match length is
the pattern's byte length. The lower-casing function is a parameter. -/
def ngramDocIterator.next (lower : List Nat → List Nat) (it : ngramDocIterator) :
    List candidateMatch :=
  it.first.flatMap fun a =>
    (it.last.filter fun b => decide (a ≤ b ∧ b - a = it.distance)).map fun _ =>
      let start := a - it.leftPad
      let before := it.ends.filter fun e => decide (e ≤ start)
      { caseSensitive := it.query.CaseSensitive,
        fileName := it.query.FileName,
        substrBytes := it.query.Pattern,
        substrLowered := lower it.query.Pattern,
        file := before.length,
        offset := start - before.foldl max 0,
        matchSz := it.query.Pattern.length }

/-! ## An in-memory instance of `Env`

The theorems below are stated for every `Env`; this instance is used to
evaluate the definitions on concrete inputs. -/

/-- Modelled from the spec: the package's `toLower` is not in `index.go`; the
spec says it lower-cases the pattern, here byte by byte on ASCII letters. -/
def toLower (s : List Nat) : List Nat :=
  s.map fun c => if 65 ≤ c ∧ c ≤ 90 then c + 32 else c

/-- Go's `strings.ToLower` on the UTF-8 bytes of a string made of ASCII
characters and Kelvin signs (U+212A, bytes E2 84 AA, which `unicode.ToLower`
maps to the one-byte letter k); other bytes are copied. -/
def stringsToLower : List Nat → List Nat
  | [] => []
  | 0xE2 :: 0x84 :: 0xAA :: s => 0x6B :: stringsToLower s
  | c :: s => (if 65 ≤ c ∧ c ≤ 90 then c + 32 else c) :: stringsToLower s

/-- Modelled from the spec: `stringToNGram` is not in `index.go`; the spec says
the bytes of an n-gram are packed into an integer key. -/
def stringToNGram (s : List Nat) : ngram :=
  s.foldl (fun acc b => acc * 256 + b) 0

/-- Modelled from the spec: `fromDeltas` is not in `index.go`; by spec 4.1 each value is
the previous value plus a delta, the first delta measured from 0. Here every
byte of the blob is one delta. -/
def fromDeltasFrom : Nat → List Nat → List Nat
  | _, [] => []
  | last, d :: ds => (last + d) :: fromDeltasFrom (last + d) ds

/-- A reader over an index file held in memory: a section outside the file
sets the error field. -/
def readSectionBlob (rd : reader (List Nat)) (sec : simpleSection) :
    List Nat × reader (List Nat) :=
  match goSlice rd.r sec.off (sec.off + sec.sz) with
  | some blob => (blob, rd)
  | none => ([], { rd with err := some (.other "section out of range") })

/-- The in-memory instance. -/
def memEnv : Env (List Nat) where
  stringsToLower := stringsToLower
  toLower := toLower
  stringToNGram := stringToNGram
  fromDeltas := fromDeltasFrom 0
  readSectionBlob := readSectionBlob

/-! ## Sample inputs -/

/-- A store with the two files `README.md` and `cab.go`, whose content index
records the n-grams `abc` (section at 0, size 2) and `bcd` (section at 2,
size 2). -/
def sampleData : indexData where
  ngrams := fun g =>
    if g = stringToNGram [97, 98, 99] then some ⟨0, 2, by decide⟩
    else if g = stringToNGram [98, 99, 100] then some ⟨2, 2, by decide⟩
    else none
  fileEnds := [10]
  fileNameContent := [82, 69, 65, 68, 77, 69, 46, 109, 100, 99, 97, 98, 46, 103, 111]
  fileNameIndex := [0, 9, 15]
  fileNameNgrams := fun _ => none

/-- A store in which every n-gram has frequency 1. -/
def uniformData : indexData where
  ngrams := fun _ => some ⟨0, 1, by decide⟩
  fileEnds := [10]
  fileNameContent := []
  fileNameIndex := [0]
  fileNameNgrams := fun _ => none

/-- A reader over an index file of four bytes, with no error recorded. -/
def sampleReader : reader (List Nat) := { r := [1, 2, 3, 4], err := none }

/-- The content query for `abc`. -/
def abcQuery : query.Substring := { Pattern := [97, 98, 99], CaseSensitive := false, FileName := false }

/-- The content query for `abcd`. -/
def abcdQuery : query.Substring :=
  { Pattern := [97, 98, 99, 100], CaseSensitive := false, FileName := false }

/-- The content query for `abce`, whose second n-gram `bce` is not in `sampleData`. -/
def abceQuery : query.Substring :=
  { Pattern := [97, 98, 99, 101], CaseSensitive := false, FileName := false }

/-- The content query for `abcde`. -/
def abcdeQuery : query.Substring :=
  { Pattern := [97, 98, 99, 100, 101], CaseSensitive := false, FileName := false }

/-- The iterator that `getContentDocIterator` builds for `abcQuery` over `sampleData`. -/
def abcIterator : ngramDocIterator :=
  { query := abcQuery, leftPad := 0, rightPad := 0, distance := 0,
    first := [1, 3], last := [1, 3], ends := [10], _coversContent := true }

/-- The outcome of `getContentDocIterator` for `abcQuery` over `sampleData`. -/
def abcOutcome : Outcome (List Nat) :=
  { it := some (.ngramDoc abcIterator), err := none, rd := sampleReader,
    reads := [⟨0, 2, by decide⟩] }

/-- The filename query for `ab`. -/
def abFileQuery : query.Substring := { Pattern := [97, 98], CaseSensitive := false, FileName := true }

/-- The filename query for the Kelvin sign U+212A, three bytes of UTF-8. -/
def kelvinFileQuery : query.Substring :=
  { Pattern := [0xE2, 0x84, 0xAA], CaseSensitive := false, FileName := true }

/-- The candidate for `ab` in the file `cab.go` of `sampleData`. -/
def abFileCandidate : candidateMatch :=
  { caseSensitive := false, fileName := true, substrBytes := [97, 98],
    substrLowered := [97, 98], file := 1, offset := 1, matchSz := 2 }

/-- The iterator that `getBruteForceFileNameDocIterator` builds for `abFileQuery`
over `sampleData`. -/
def abFileIter : bruteForceIter := { cands := [abFileCandidate] }

/-! ## Vocabulary of the statements -/

/-- The frequency recorded for the n-gram at position `i` of `str`, that is
`data.ngrams[stringToNGram(str[i:i+ngramSize])].sz`. -/
def freqAt {φ : Type} (env : Env φ) (data : indexData) (str : List Nat) (i : Nat) : Nat :=
  (data.ngramsAt (env.stringToNGram ((str.drop i).take ngramSize))).sz

/-- The frequencies of all n-gram positions `0 .. len(str) - ngramSize` of `str`. -/
def frequencyTable {φ : Type} (env : Env φ) (data : indexData) (str : List Nat) : List Nat :=
  (List.range' 0 (str.length + 1 - ngramSize)).map (freqAt env data str)

/-- Every n-gram position of `str` has a non-zero recorded frequency. -/
def AllFrequent {φ : Type} (env : Env φ) (data : indexData) (str : List Nat) : Prop :=
  ∀ i, i + ngramSize ≤ str.length → freqAt env data str i ≠ 0

/-- The section recorded for the n-gram at position `i` of `str`. -/
def sectionAt {φ : Type} (env : Env φ) (data : indexData) (str : List Nat) (i : Nat) :
    simpleSection :=
  data.ngramsAt (env.stringToNGram ((str.drop i).take ngramSize))

/-- The iterator planned for the positions `a ≤ b` of the pattern `str`, with
its geometry in natural-number arithmetic. -/
def plannedIterator (data : indexData) (q : query.Substring) (str : List Nat) (a b : Nat)
    (first last : List Nat) : ngramDocIterator :=
  { query := q, ends := data.fileEnds, first := first, last := last,
    distance := b - a, leftPad := a, rightPad := str.length - ngramSize - b,
    _coversContent := decide (b - a ≤ ngramSize ∧ a = 0 ∧ str.length - ngramSize - b = 0) }

/-- The outcome of reading the posting lists of the positions `a ≤ b`, with the
geometry in natural-number arithmetic: the normal form of `readSelected`. -/
def plannedOutcome {φ : Type} (env : Env φ) (data : indexData) (rd : reader φ)
    (q : query.Substring) (str : List Nat) (a b : Nat) : Outcome φ :=
  let first := sectionAt env data str a
  let last := sectionAt env data str b
  let r1 := env.readSectionBlob rd first
  if r1.2.err ≠ none then { it := none, err := r1.2.err, rd := r1.2, reads := [first] }
  else if a ≠ b then
    let r2 := env.readSectionBlob r1.2 last
    if r2.2.err ≠ none then { it := none, err := r2.2.err, rd := r2.2, reads := [first, last] }
    else
      { it := some (.ngramDoc
          (plannedIterator data q str a b (env.fromDeltas r1.1) (env.fromDeltas r2.1))),
        err := none, rd := r2.2, reads := [first, last] }
  else
    { it := some (.ngramDoc
        (plannedIterator data q str a b (env.fromDeltas r1.1) (env.fromDeltas r1.1))),
      err := none, rd := r1.2, reads := [first] }

/-- Position `p` of the table holds the least value of the table. -/
def AttainsMin (xs : List Nat) (p : Nat) : Prop :=
  p < xs.length ∧ ∀ k, k < xs.length → xs.getD p 0 ≤ xs.getD k 0

/-- Position `p` is the lowest index among the positions that attain the minimum. -/
def IsLeftmostMin (xs : List Nat) (p : Nat) : Prop :=
  AttainsMin xs p ∧ ∀ k, AttainsMin xs k → p ≤ k

/-- Position `p` is the highest index among the positions that attain the minimum. -/
def IsRightmostMin (xs : List Nat) (p : Nat) : Prop :=
  AttainsMin xs p ∧ ∀ k, AttainsMin xs k → k ≤ p

/-- Position `p` is not `skip` and holds the least value among the positions
other than `skip`. -/
def AttainsMinOfRest (xs : List Nat) (skip p : Nat) : Prop :=
  p < xs.length ∧ p ≠ skip ∧ ∀ k, k < xs.length → k ≠ skip → xs.getD p 0 ≤ xs.getD k 0

/-- Position `p` is the lowest index among the positions other than `skip`
that attain the minimum of the rest. -/
def IsLeftmostMinOfRest (xs : List Nat) (skip p : Nat) : Prop :=
  AttainsMinOfRest xs skip p ∧ ∀ k, AttainsMinOfRest xs skip k → p ≤ k

/-- Position `p` is the highest index among the positions other than `skip`
that attain the minimum of the rest. -/
def IsRightmostMinOfRest (xs : List Nat) (skip p : Nat) : Prop :=
  AttainsMinOfRest xs skip p ∧ ∀ k, AttainsMinOfRest xs skip k → k ≤ p

/-- The byte string `pat` occurs in `name` at index `k`. -/
def OccursAt (name pat : List Nat) (k : Nat) : Prop :=
  k + pat.length ≤ name.length ∧ (name.drop k).take pat.length = pat

instance (name pat : List Nat) (k : Nat) : Decidable (OccursAt name pat k) := by
  unfold OccursAt
  infer_instance

/-- The smallest index at which `pat` occurs in `name`, when it occurs. -/
def firstOccurrence (name pat : List Nat) : Option Nat :=
  (List.range (name.length + 1)).find? fun k => decide (OccursAt name pat k)

/-- The candidate of the reference definition for file `i` and offset `k`. -/
def referenceCandidate {φ : Type} (env : Env φ) (q : query.Substring) (i k : Nat) :
    candidateMatch :=
  { caseSensitive := q.CaseSensitive,
    fileName := true,
    substrBytes := q.Pattern,
    substrLowered := env.toLower q.Pattern,
    file := i,
    offset := k,
    matchSz := q.Pattern.length }

/-- The candidate of the reference definition for file `i`, when the name of
the file contains the lower-cased pattern. -/
def referenceCandidateOf {φ : Type} (env : Env φ) (data : indexData) (q : query.Substring)
    (i : Nat) : Option candidateMatch :=
  match data.fileName i with
  | none => none
  | some name =>
    match firstOccurrence name (env.toLower q.Pattern) with
    | none => none
    | some k => some (referenceCandidate env q i k)

/-- The reference definition of brute-force filename search, in the words of
the spec: in ascending file order, one candidate for each file whose name
contains the lower-cased pattern, at the smallest index where it occurs, and
none for the other files. -/
def bruteForceReference {φ : Type} (env : Env φ) (data : indexData) (q : query.Substring) :
    List candidateMatch :=
  (List.range (data.fileNameIndex.length - 1)).filterMap (referenceCandidateOf env data q)

/-- The store invariant on the filename table: `fileNameIndex` holds `uint32`
values, at most `2 ^ 32` of them, is non-decreasing, starts at 0 and stays
within `fileNameContent`. -/
structure FileNamesWF (data : indexData) : Prop where
  isU32 : ∀ x ∈ data.fileNameIndex, x < 2 ^ 32
  count : data.fileNameIndex.length ≤ 2 ^ 32
  mono : List.Chain' (· ≤ ·) data.fileNameIndex
  start : data.fileNameIndex.head? = some 0
  bound : ∀ x ∈ data.fileNameIndex, x ≤ data.fileNameContent.length

/-! ## Further sample inputs and vocabulary -/

/-- The sample store with a filename index: the n-gram `cab` occurs at offset 9
of the filename content and the n-gram `ab.` at offset 10. -/
def namesData : indexData :=
  { sampleData with
    fileNameNgrams := fun g =>
      if g = stringToNGram [99, 97, 98] then some [9]
      else if g = stringToNGram [97, 98, 46] then some [10]
      else none }

/-- The filename query for `cab.`. -/
def cabDotFileQuery : query.Substring :=
  { Pattern := [99, 97, 98, 46], CaseSensitive := false, FileName := true }

/-- The case-sensitive filename query for `ab`. -/
def abFileQuerySensitive : query.Substring :=
  { Pattern := [97, 98], CaseSensitive := true, FileName := true }

/-- The filename query with the empty pattern. -/
def emptyFileQuery : query.Substring :=
  { Pattern := [], CaseSensitive := false, FileName := true }

/-- A store whose n-gram `abc` has the frequency `maxUInt32` and whose n-gram
`bcd` has the frequency 3. -/
def saturatedData : indexData where
  ngrams := fun g =>
    if g = stringToNGram [97, 98, 99] then some ⟨0, 4294967295, by decide⟩
    else if g = stringToNGram [98, 99, 100] then some ⟨0, 3, by decide⟩
    else none
  fileEnds := [10]
  fileNameContent := []
  fileNameIndex := [0]
  fileNameNgrams := fun _ => none

/-- A reader over an index file of three bytes: the section at 2 of size 2 is
out of range. -/
def shortReader : reader (List Nat) := { r := [1, 2, 3], err := none }

/-- Two candidates agree on everything but the `caseSensitive` field. -/
def SameButCase (c1 c2 : candidateMatch) : Prop :=
  c1.fileName = c2.fileName ∧ c1.substrBytes = c2.substrBytes ∧
  c1.substrLowered = c2.substrLowered ∧ c1.file = c2.file ∧ c1.offset = c2.offset ∧
  c1.matchSz = c2.matchSz

/-- The position `f` is the last n-gram position of `str` and every other
position has the frequency `maxUInt32`. -/
def RestSaturated {φ : Type} (env : Env φ) (data : indexData) (str : List Nat) (f : Nat) :
    Prop :=
  f + ngramSize = str.length ∧
  ∀ p, p + ngramSize ≤ str.length → p ≠ f → freqAt env data str p = maxUInt32

/-- Two candidates produced for two queries that differ in `CaseSensitive`
only: they agree but for the flag, which each copies from its query. -/
def AgreeButCase (q1 q2 : query.Substring) (c1 c2 : candidateMatch) : Prop :=
  SameButCase c1 c2 ∧ c1.caseSensitive = q1.CaseSensitive ∧
  c2.caseSensitive = q2.CaseSensitive

/-- The candidate for file `i` of a filename query with the empty pattern. -/
def emptyPatternCandidate (q : query.Substring) (i : Nat) : candidateMatch :=
  { caseSensitive := q.CaseSensitive, fileName := true, substrBytes := [],
    substrLowered := [], file := i, offset := 0, matchSz := 0 }

/-! ## Facts about the Go primitives -/

theorem ngramSize_pos : 0 < ngramSize := by decide

theorem ngramSize_lt_u32 : ngramSize < 2 ^ 32 := by decide

theorem u32_of_lt {n : Nat} (h : n < 2 ^ 32) : u32 n = n := Nat.mod_eq_of_lt h

theorem subU32_of_le {a b : Nat} (hba : b ≤ a) (ha : a < 2 ^ 32) : subU32 a b = a - b := by
  unfold subU32
  have h : a + 2 ^ 32 - b = (a - b) + 2 ^ 32 := by omega
  rw [h, Nat.add_mod_right]
  exact Nat.mod_eq_of_lt (by omega)

theorem addU32_of_lt {a b : Nat} (h : a + b < 2 ^ 32) : addU32 a b = a + b :=
  Nat.mod_eq_of_lt h

theorem goSlice_eq_some {α : Type} (s : List α) {lo hi : Nat} (h1 : lo ≤ hi)
    (h2 : hi ≤ s.length) : goSlice s lo hi = some ((s.drop lo).take (hi - lo)) := by
  unfold goSlice
  rw [if_pos ⟨h1, h2⟩]

theorem goSlice_eq_none {α : Type} (s : List α) {lo hi : Nat} (h : hi < lo ∨ s.length < hi) :
    goSlice s lo hi = none := by
  unfold goSlice
  rw [if_neg]
  omega

/-! ## Facts about `minarg` -/

/-- The loop of `minarg` either keeps the index it was given, when every
element exceeds the bound `m`, or returns the last position holding the least
element. -/
theorem minargLoop_spec (xs : List Nat) : ∀ i m j : Nat,
    (minargLoop xs i m j = j ∧ ∀ x ∈ xs, m < x) ∨
    (∃ k, k < xs.length ∧ minargLoop xs i m j = i + k ∧ xs.getD k 0 ≤ m ∧
      (∀ k2, k2 < xs.length → xs.getD k 0 ≤ xs.getD k2 0) ∧
      (∀ k2, k < k2 → k2 < xs.length → xs.getD k 0 < xs.getD k2 0)) := by
  induction xs with
  | nil =>
    intro i m j
    left
    simp [minargLoop]
  | cons x xs ih =>
    intro i m j
    by_cases hx : x ≤ m
    · have hstep : minargLoop (x :: xs) i m j = minargLoop xs (i + 1) x i := by
        simp [minargLoop, hx]
      rw [hstep]
      right
      rcases ih (i + 1) x i with ⟨hr, hall⟩ | ⟨k, hk, hr, hkx, hmin, hlast⟩
      · refine ⟨0, by simp, by simpa using hr, by simpa using hx, ?_, ?_⟩
        · intro k2 hk2
          cases k2 with
          | zero => simp
          | succ k2 =>
            have hmem : xs.getD k2 0 ∈ xs := by
              rw [List.getD_eq_getElem xs 0 (by simpa using hk2)]
              exact List.getElem_mem _
            simpa using Nat.le_of_lt (hall _ hmem)
        · intro k2 hpos hk2
          cases k2 with
          | zero => omega
          | succ k2 =>
            have hmem : xs.getD k2 0 ∈ xs := by
              rw [List.getD_eq_getElem xs 0 (by simpa using hk2)]
              exact List.getElem_mem _
            simpa using hall _ hmem
      · refine ⟨k + 1, by simpa using hk, by omega, ?_, ?_, ?_⟩
        · simpa using Nat.le_trans hkx hx
        · intro k2 hk2
          cases k2 with
          | zero => simpa using hkx
          | succ k2 => simpa using hmin k2 (by simpa using hk2)
        · intro k2 hlt hk2
          cases k2 with
          | zero => omega
          | succ k2 => simpa using hlast k2 (by omega) (by simpa using hk2)
    · have hstep : minargLoop (x :: xs) i m j = minargLoop xs (i + 1) m j := by
        simp [minargLoop, hx]
      rw [hstep]
      rcases ih (i + 1) m j with ⟨hr, hall⟩ | ⟨k, hk, hr, hkm, hmin, hlast⟩
      · left
        refine ⟨hr, ?_⟩
        intro y hy
        rcases List.mem_cons.mp hy with rfl | hy
        · omega
        · exact hall y hy
      · right
        refine ⟨k + 1, by simpa using hk, by omega, by simpa using hkm, ?_, ?_⟩
        · intro k2 hk2
          cases k2 with
          | zero =>
            have : xs.getD k 0 ≤ x := by omega
            simpa using this
          | succ k2 => simpa using hmin k2 (by simpa using hk2)
        · intro k2 hlt hk2
          cases k2 with
          | zero => omega
          | succ k2 => simpa using hlast k2 (by omega) (by simpa using hk2)

/-- On a non-empty table of `uint32` values with at most `2 ^ 32` entries,
`minarg` returns an index of the table, the value there is the least of the
table, and every later value is strictly greater. -/
theorem minarg_spec (xs : List Nat) (hne : xs ≠ []) (hle : ∀ x ∈ xs, x ≤ maxUInt32)
    (hlen : xs.length ≤ 2 ^ 32) :
    minarg xs < xs.length ∧
    (∀ k, k < xs.length → xs.getD (minarg xs) 0 ≤ xs.getD k 0) ∧
    (∀ k, minarg xs < k → k < xs.length → xs.getD (minarg xs) 0 < xs.getD k 0) := by
  rcases minargLoop_spec xs 0 maxUInt32 xs.length with ⟨_, hall⟩ | ⟨k, hk, hr, _, hmin, hlast⟩
  · exfalso
    cases xs with
    | nil => exact hne rfl
    | cons x xs =>
      have h1 := hall x (List.mem_cons_self _ _)
      have h2 := hle x (List.mem_cons_self _ _)
      omega
  · have hm : minarg xs = k := by
      unfold minarg
      rw [hr, Nat.zero_add]
      exact u32_of_lt (by omega)
    rw [hm]
    exact ⟨hk, hmin, hlast⟩

/-! ## Facts about the frequency table -/

theorem frequencyTable_length {φ : Type} (env : Env φ) (data : indexData) (str : List Nat) :
    (frequencyTable env data str).length = str.length + 1 - ngramSize := by
  simp [frequencyTable]

theorem frequencyTable_getD {φ : Type} (env : Env φ) (data : indexData) (str : List Nat)
    {k : Nat} (hk : k < str.length + 1 - ngramSize) :
    (frequencyTable env data str).getD k 0 = freqAt env data str k := by
  have hk2 : k < (frequencyTable env data str).length := by
    rw [frequencyTable_length]; exact hk
  rw [List.getD_eq_getElem _ _ hk2]
  simp [frequencyTable, List.getElem_range']

theorem freqAt_le_max {φ : Type} (env : Env φ) (data : indexData) (str : List Nat) (i : Nat) :
    freqAt env data str i ≤ maxUInt32 := by
  have h := (data.ngramsAt (env.stringToNGram ((str.drop i).take ngramSize))).isU32.2
  have hm : maxUInt32 = 2 ^ 32 - 1 := by decide
  unfold freqAt
  omega

theorem frequencyTable_le_max {φ : Type} (env : Env φ) (data : indexData) (str : List Nat) :
    ∀ x ∈ frequencyTable env data str, x ≤ maxUInt32 := by
  intro x hx
  simp only [frequencyTable, List.mem_map] at hx
  obtain ⟨i, _, rfl⟩ := hx
  exact freqAt_le_max env data str i

/-- The frequency loop fills the table when it meets no zero frequency. -/
theorem frequencyLoop_table {φ : Type} (env : Env φ) (data : indexData) (str : List Nat) :
    ∀ n i : Nat, (n = 0 ∨ i + n + ngramSize ≤ str.length + 1) →
      (∀ k, k < n → freqAt env data str (i + k) ≠ 0) →
      frequencyLoop env data str n i
        = some (.table ((List.range' i n).map (freqAt env data str))) := by
  intro n
  induction n with
  | zero => intro i _ _; simp [frequencyLoop]
  | succ n ih =>
    intro i hb hnz
    have hb2 : i + (n + 1) + ngramSize ≤ str.length + 1 := by omega
    have hs : goSlice str i (i + ngramSize) = some ((str.drop i).take ngramSize) := by
      rw [goSlice_eq_some str (by omega) (by omega)]
      congr 2
      omega
    have h0 : freqAt env data str i ≠ 0 := by simpa using hnz 0 (by omega)
    have hrec := ih (i + 1) (by omega) (fun k hk => by
      have := hnz (k + 1) (by omega)
      rwa [show i + (k + 1) = i + 1 + k by omega] at this)
    unfold frequencyLoop
    simp only [hs]
    unfold freqAt at h0
    rw [if_neg h0, hrec]
    simp [List.range', freqAt]

/-- The frequency loop returns early when some position has frequency zero. -/
theorem frequencyLoop_zero {φ : Type} (env : Env φ) (data : indexData) (str : List Nat) :
    ∀ n i : Nat, (n = 0 ∨ i + n + ngramSize ≤ str.length + 1) →
      (∃ k, k < n ∧ freqAt env data str (i + k) = 0) →
      frequencyLoop env data str n i = some .zero := by
  intro n
  induction n with
  | zero => intro i _ ⟨k, hk, _⟩; omega
  | succ n ih =>
    intro i hb hz
    have hb2 : i + (n + 1) + ngramSize ≤ str.length + 1 := by omega
    have hs : goSlice str i (i + ngramSize) = some ((str.drop i).take ngramSize) := by
      rw [goSlice_eq_some str (by omega) (by omega)]
      congr 2
      omega
    unfold frequencyLoop
    simp only [hs]
    by_cases h0 : freqAt env data str i = 0
    · unfold freqAt at h0
      rw [if_pos h0]
    · obtain ⟨k, hk, hkz⟩ := hz
      have hk0 : k ≠ 0 := by
        rintro rfl
        exact h0 (by simpa using hkz)
      have hrec := ih (i + 1) (by omega) ⟨k - 1, by omega, by
        rwa [show i + 1 + (k - 1) = i + k by omega]⟩
      unfold freqAt at h0
      rw [if_neg h0, hrec]

/-- With every frequency non-zero the scan produces the whole frequency table. -/
theorem frequencyScan_table {φ : Type} (env : Env φ) (data : indexData) (str : List Nat)
    (hlen : ngramSize ≤ str.length) (hall : AllFrequent env data str) :
    frequencyScan env data str = some (.table (frequencyTable env data str)) := by
  unfold frequencyScan
  rw [if_neg (by omega)]
  rw [frequencyLoop_table env data str _ 0 (by omega) (fun k hk => by
    rw [Nat.zero_add]; exact hall k (by omega))]
  rfl

/-- With some frequency zero the scan returns early. -/
theorem frequencyScan_zero {φ : Type} (env : Env φ) (data : indexData) (str : List Nat)
    (hz : ∃ i, i + ngramSize ≤ str.length ∧ freqAt env data str i = 0) :
    frequencyScan env data str = some .zero := by
  obtain ⟨i, hi, hiz⟩ := hz
  unfold frequencyScan
  rw [if_neg (by omega)]
  exact frequencyLoop_zero env data str _ 0 (by omega) ⟨i, by omega, by rwa [Nat.zero_add]⟩

/-! ## Facts about the selection -/

theorem getD_set_ne (xs : List Nat) {f k : Nat} (v : Nat) (h : k ≠ f) :
    (xs.set f v).getD k 0 = xs.getD k 0 := by
  simp [List.getD_eq_getElem?_getD, List.getElem?_set_ne (Ne.symm h)]

theorem getD_set_eq (xs : List Nat) {f : Nat} (v : Nat) (h : f < xs.length) :
    (xs.set f v).getD f 0 = v := by
  simp [List.getD_eq_getElem?_getD, List.getElem?_set_self, h]

theorem isRightmostMin_minarg (xs : List Nat) (hne : xs ≠ []) (hle : ∀ x ∈ xs, x ≤ maxUInt32)
    (hlen : xs.length ≤ 2 ^ 32) : IsRightmostMin xs (minarg xs) := by
  obtain ⟨hlt, hmin, hlast⟩ := minarg_spec xs hne hle hlen
  refine ⟨⟨hlt, hmin⟩, ?_⟩
  intro k hk
  by_contra hgt
  have h1 := hlast k (by omega) hk.1
  have h2 := hk.2 (minarg xs) hlt
  omega

/-- The two selections of `getContentDocIterator` on a non-empty table of
`uint32` values: both are positions of the table, the first is the last
position of the least value, the second is the last position of the least
value of the table after the write `frequencies[firstI] = maxUInt32`. -/
theorem selectNgrams_spec (xs : List Nat) (hne : xs ≠ []) (hle : ∀ x ∈ xs, x ≤ maxUInt32)
    (hlen : xs.length ≤ 2 ^ 32) :
    ∃ f s, selectNgrams xs = some (f, s) ∧ f < xs.length ∧ s < xs.length ∧
      f = minarg xs ∧ s = minarg (xs.set f maxUInt32) ∧
      IsRightmostMin xs f ∧ IsRightmostMin (xs.set f maxUInt32) s := by
  have h1 := isRightmostMin_minarg xs hne hle hlen
  have hne2 : xs.set (minarg xs) maxUInt32 ≠ [] := by
    intro h
    have := congrArg List.length h
    simp at this
    exact hne this
  have hle2 : ∀ x ∈ xs.set (minarg xs) maxUInt32, x ≤ maxUInt32 := by
    intro x hx
    rcases List.mem_or_eq_of_mem_set hx with h | h
    · exact hle x h
    · omega
  have h2 := isRightmostMin_minarg (xs.set (minarg xs) maxUInt32) hne2 hle2 (by simpa using hlen)
  refine ⟨minarg xs, minarg (xs.set (minarg xs) maxUInt32), ?_, h1.1.1, ?_, rfl, rfl, h1, h2⟩
  · unfold selectNgrams
    simp only [if_pos h1.1.1]
  · simpa using h2.1.1

/-- Away from the first selection the second one holds the least value. -/
theorem second_le_rest (xs : List Nat) {f s : Nat}
    (h2 : IsRightmostMin (xs.set f maxUInt32) s) (hsf : s ≠ f) :
    ∀ k, k < xs.length → k ≠ f → xs.getD s 0 ≤ xs.getD k 0 := by
  intro k hk hkf
  have h := h2.1.2 k (by simpa using hk)
  rwa [getD_set_ne xs _ hsf, getD_set_ne xs _ hkf] at h

/-- When a position other than the first selection holds a value below
`maxUInt32`, the second selection is the last position of the least value among
the positions other than the first selection. -/
theorem second_isRightmostMinOfRest (xs : List Nat) {f s : Nat} (hf : f < xs.length)
    (hle : ∀ x ∈ xs, x ≤ maxUInt32)
    (h2 : IsRightmostMin (xs.set f maxUInt32) s)
    (hp : ∃ p, p < xs.length ∧ p ≠ f ∧ xs.getD p 0 < maxUInt32) :
    IsRightmostMinOfRest xs f s := by
  obtain ⟨p, hpl, hpf, hpv⟩ := hp
  have hs : s < xs.length := by simpa using h2.1.1
  have hsf : s ≠ f := by
    rintro rfl
    have h := h2.1.2 p (by simpa using hpl)
    rw [getD_set_eq xs _ hf, getD_set_ne xs _ hpf] at h
    omega
  refine ⟨⟨hs, hsf, second_le_rest xs h2 hsf⟩, ?_⟩
  intro k hk
  apply h2.2
  refine ⟨by simpa using hk.1, ?_⟩
  intro j hj
  have hj2 : j < xs.length := by simpa using hj
  rw [getD_set_ne xs _ hk.2.1]
  by_cases hjf : j = f
  · subst hjf
    rw [getD_set_eq xs _ hf]
    have : xs.getD k 0 ∈ xs := by
      rw [List.getD_eq_getElem xs 0 hk.1]
      exact List.getElem_mem _
    exact hle _ this
  · rw [getD_set_ne xs _ hjf]
    exact hk.2.2 j hj2 hjf

/-! ## The normal form of `getContentDocIterator` -/

theorem markCoversContent_eq (data : indexData) (q : query.Substring) (str : List Nat)
    {a b : Nat} (first last : List Nat) (hab : a ≤ b) (hb : b + ngramSize ≤ str.length)
    (hL : str.length < 2 ^ 32) :
    markCoversContent a b
      { query := q, ends := data.fileEnds, first := first, last := last, _coversContent := false,
        distance := subU32 b a, leftPad := a,
        rightPad := subU32 (u32 (str.length - ngramSize)) b }
      = plannedIterator data q str a b first last := by
  have h1 : subU32 b a = b - a := subU32_of_le hab (by omega)
  have h2 : u32 (str.length - ngramSize) = str.length - ngramSize := u32_of_lt (by omega)
  have h3 : subU32 (str.length - ngramSize) b = str.length - ngramSize - b :=
    subU32_of_le (by omega) (by omega)
  unfold markCoversContent plannedIterator
  simp only [h1, h2, h3]
  by_cases hc : b - a ≤ ngramSize ∧ a = 0 ∧ str.length - ngramSize - b = 0
  · rw [if_pos hc, decide_eq_true hc]
  · rw [if_neg hc, decide_eq_false hc]

/-- For positions `a ≤ b` inside a pattern shorter than `2 ^ 32` bytes no
`uint32` operation of `readSelected` wraps and no slice is out of range. -/
theorem readSelected_eq {φ : Type} (env : Env φ) (data : indexData) (rd : reader φ)
    (q : query.Substring) (str : List Nat) {a b : Nat} (hab : a ≤ b)
    (hb : b + ngramSize ≤ str.length) (hL : str.length < 2 ^ 32) :
    readSelected env data rd q str a b = some (plannedOutcome env data rd q str a b) := by
  have ha1 : addU32 a ngramSize = a + ngramSize := addU32_of_lt (by omega)
  have hb1 : addU32 b ngramSize = b + ngramSize := addU32_of_lt (by omega)
  have hsa : goSlice str a (a + ngramSize) = some ((str.drop a).take ngramSize) := by
    rw [goSlice_eq_some str (by omega) (by omega)]
    congr 2
    omega
  have hsb : goSlice str b (b + ngramSize) = some ((str.drop b).take ngramSize) := by
    rw [goSlice_eq_some str (by omega) (by omega)]
    congr 2
    omega
  unfold readSelected plannedOutcome sectionAt
  simp only [ha1, hb1, hsa, hsb]
  simp only [markCoversContent_eq data q str _ _ hab hb hL]
  split_ifs <;> rfl

theorem swapSelected_eq (f s : Nat) : swapSelected (f, s) = (min f s, max f s) := by
  unfold swapSelected
  by_cases h : f > s
  · simp only [h, if_true]
    rw [Nat.min_eq_right (by omega), Nat.max_eq_left (by omega)]
  · simp only [h, if_false]
    rw [Nat.min_eq_left (by omega), Nat.max_eq_right (by omega)]

/-- A content query whose lower-cased pattern has at least `ngramSize` and
fewer than `2 ^ 32` bytes, all of whose n-grams have a non-zero frequency,
is planned: `getContentDocIterator` does not panic, and its outcome is the
planned outcome for the two selected positions in ascending order. -/
theorem getContentDocIterator_planned {φ : Type} (env : Env φ) (data : indexData)
    (rd : reader φ) (q : query.Substring)
    (hlen : ngramSize ≤ (env.stringsToLower q.Pattern).length)
    (hL : (env.stringsToLower q.Pattern).length < 2 ^ 32)
    (hall : AllFrequent env data (env.stringsToLower q.Pattern)) :
    ∃ f s, selectNgrams (frequencyTable env data (env.stringsToLower q.Pattern)) = some (f, s) ∧
      f + ngramSize ≤ (env.stringsToLower q.Pattern).length ∧
      s + ngramSize ≤ (env.stringsToLower q.Pattern).length ∧
      IsRightmostMin (frequencyTable env data (env.stringsToLower q.Pattern)) f ∧
      IsRightmostMin ((frequencyTable env data (env.stringsToLower q.Pattern)).set f maxUInt32) s ∧
      getContentDocIterator env data rd q
        = some (plannedOutcome env data rd q (env.stringsToLower q.Pattern) (min f s) (max f s)) := by
  have hTlen := frequencyTable_length env data (env.stringsToLower q.Pattern)
  have hne : frequencyTable env data (env.stringsToLower q.Pattern) ≠ [] := by
    intro h
    rw [h] at hTlen
    simp at hTlen
    omega
  obtain ⟨f, s, hsel, hf, hs, _, _, h1, h2⟩ :=
    selectNgrams_spec _ hne (frequencyTable_le_max env data _) (by omega)
  refine ⟨f, s, hsel, by omega, by omega, h1, h2, ?_⟩
  unfold getContentDocIterator
  simp only [frequencyScan_table env data _ hlen hall, hsel, swapSelected_eq]
  exact readSelected_eq env data rd q _ (by omega) (by omega) hL

/-- The scan ends in a table only when every n-gram frequency is non-zero. -/
theorem allFrequent_of_table {φ : Type} (env : Env φ) (data : indexData) (str : List Nat)
    {fs : List Nat} (h : frequencyScan env data str = some (.table fs)) :
    AllFrequent env data str := by
  intro i hi hz
  rw [frequencyScan_zero env data str ⟨i, hi, hz⟩] at h
  cases h

/-- The scan returns early only when some n-gram frequency is zero. -/
theorem not_allFrequent_of_zero {φ : Type} (env : Env φ) (data : indexData) (str : List Nat)
    (h : frequencyScan env data str = some .zero) : ¬ AllFrequent env data str := by
  intro hall
  by_cases hlen : ngramSize ≤ str.length
  · rw [frequencyScan_table env data str hlen hall] at h
    cases h
  · unfold frequencyScan at h
    by_cases h1 : str.length + 1 < ngramSize
    · rw [if_pos h1] at h
      cases h
    · rw [if_neg h1] at h
      have h0 : str.length + 1 - ngramSize = 0 := by omega
      rw [h0] at h
      simp [frequencyLoop] at h

/-! ## Content queries: the zero-frequency short-circuit (C2) -/

/-- C2: when some n-gram position of the lower-cased pattern has recorded
frequency zero (so the pattern has at least `ngramSize` bytes),
`getContentDocIterator` returns no error and an iterator whose first and last
posting lists are both empty, leaves the reader as it was and reads no
section; no pair `(a, b)` with `b - a = distance` exists in the two lists and
the iterator yields no candidate. -/
theorem getContentDocIterator_zero_frequency {φ : Type} (env : Env φ) (data : indexData)
    (rd : reader φ) (q : query.Substring) (lower : List Nat → List Nat)
    (hzero : ∃ i, i + ngramSize ≤ (env.stringsToLower q.Pattern).length ∧
      freqAt env data (env.stringsToLower q.Pattern) i = 0) :
    ∃ it, getContentDocIterator env data rd q
        = some { it := some (.ngramDoc it), err := none, rd := rd, reads := [] } ∧
      it.first = [] ∧ it.last = [] ∧
      (¬ ∃ a b, a ∈ it.first ∧ b ∈ it.last ∧ b - a = it.distance) ∧
      ngramDocIterator.next lower it = [] := by
  refine ⟨{ query := q, leftPad := 0, rightPad := 0, distance := 0, first := [], last := [],
            ends := data.fileEnds, _coversContent := false }, ?_, rfl, rfl, ?_, rfl⟩
  · unfold getContentDocIterator
    simp only [frequencyScan_zero env data _ hzero]
  · rintro ⟨a, b, ha, _, _⟩
    cases ha

/-! ## Content queries: the selection (C3, C4) -/

/-- C3 (amended): the tie-break of the selection is rightmost-wins. For a
content query whose lower-cased pattern has at least `ngramSize` and fewer than
`2 ^ 32` bytes and whose n-gram frequencies are all non-zero, the first
selection (`minarg` over the frequency table) is the highest position among
those that attain the minimum frequency; the second selection (`minarg` after
the first position is overwritten with `maxUInt32`) is the highest position
attaining the minimum of the overwritten table, which is the highest position
among the remaining positions attaining the minimum of the rest as soon as a
remaining position has a frequency below `maxUInt32`. -/
theorem selection_rightmost_wins {φ : Type} (env : Env φ) (data : indexData)
    (q : query.Substring)
    (hlen : ngramSize ≤ (env.stringsToLower q.Pattern).length)
    (hL : (env.stringsToLower q.Pattern).length < 2 ^ 32)
    (hall : AllFrequent env data (env.stringsToLower q.Pattern)) :
    ∃ firstI lastI,
      frequencyScan env data (env.stringsToLower q.Pattern)
        = some (.table (frequencyTable env data (env.stringsToLower q.Pattern))) ∧
      selectNgrams (frequencyTable env data (env.stringsToLower q.Pattern))
        = some (firstI, lastI) ∧
      firstI = minarg (frequencyTable env data (env.stringsToLower q.Pattern)) ∧
      lastI = minarg ((frequencyTable env data (env.stringsToLower q.Pattern)).set firstI maxUInt32) ∧
      IsRightmostMin (frequencyTable env data (env.stringsToLower q.Pattern)) firstI ∧
      IsRightmostMin
        ((frequencyTable env data (env.stringsToLower q.Pattern)).set firstI maxUInt32) lastI ∧
      ((∃ p, p < (frequencyTable env data (env.stringsToLower q.Pattern)).length ∧ p ≠ firstI ∧
            (frequencyTable env data (env.stringsToLower q.Pattern)).getD p 0 < maxUInt32) →
        IsRightmostMinOfRest (frequencyTable env data (env.stringsToLower q.Pattern))
          firstI lastI) := by
  have hTlen := frequencyTable_length env data (env.stringsToLower q.Pattern)
  have hne : frequencyTable env data (env.stringsToLower q.Pattern) ≠ [] := by
    intro h
    rw [h] at hTlen
    simp at hTlen
    omega
  have hle := frequencyTable_le_max env data (env.stringsToLower q.Pattern)
  obtain ⟨f, s, hsel, hf, _, hfe, hse, h1, h2⟩ := selectNgrams_spec _ hne hle (by omega)
  exact ⟨f, s, frequencyScan_table env data _ hlen hall, hsel, hfe, hse, h1, h2,
    second_isRightmostMinOfRest _ hf hle h2⟩

/-- C4: the two selected n-grams are the two rarest. For a content query whose
lower-cased pattern has at least `ngramSize` and fewer than `2 ^ 32` bytes and
whose n-gram frequencies are all non-zero, `getContentDocIterator` goes on with
the two selected positions `firstI`, `lastI`; one of them has the least
frequency of all n-gram positions of the pattern, and every position other
than these two has a frequency at least that of `firstI` and at least that of
`lastI`. -/
theorem selected_are_two_rarest {φ : Type} (env : Env φ) (data : indexData)
    (rd : reader φ) (q : query.Substring)
    (hlen : ngramSize ≤ (env.stringsToLower q.Pattern).length)
    (hL : (env.stringsToLower q.Pattern).length < 2 ^ 32)
    (hall : AllFrequent env data (env.stringsToLower q.Pattern)) :
    ∃ sel firstI lastI,
      selectNgrams (frequencyTable env data (env.stringsToLower q.Pattern)) = some sel ∧
      swapSelected sel = (firstI, lastI) ∧
      getContentDocIterator env data rd q
        = readSelected env data rd q (env.stringsToLower q.Pattern) firstI lastI ∧
      firstI + ngramSize ≤ (env.stringsToLower q.Pattern).length ∧
      lastI + ngramSize ≤ (env.stringsToLower q.Pattern).length ∧
      ((∀ p, p + ngramSize ≤ (env.stringsToLower q.Pattern).length →
          freqAt env data (env.stringsToLower q.Pattern) firstI
            ≤ freqAt env data (env.stringsToLower q.Pattern) p) ∨
       (∀ p, p + ngramSize ≤ (env.stringsToLower q.Pattern).length →
          freqAt env data (env.stringsToLower q.Pattern) lastI
            ≤ freqAt env data (env.stringsToLower q.Pattern) p)) ∧
      (∀ p, p + ngramSize ≤ (env.stringsToLower q.Pattern).length → p ≠ firstI → p ≠ lastI →
          freqAt env data (env.stringsToLower q.Pattern) firstI
            ≤ freqAt env data (env.stringsToLower q.Pattern) p ∧
          freqAt env data (env.stringsToLower q.Pattern) lastI
            ≤ freqAt env data (env.stringsToLower q.Pattern) p) := by
  obtain ⟨f, s, hsel, hf, hs, h1, h2, _⟩ := getContentDocIterator_planned env data rd q hlen hL hall
  have hTlen := frequencyTable_length env data (env.stringsToLower q.Pattern)
  have hget : ∀ k, k + ngramSize ≤ (env.stringsToLower q.Pattern).length →
      (frequencyTable env data (env.stringsToLower q.Pattern)).getD k 0
        = freqAt env data (env.stringsToLower q.Pattern) k :=
    fun k hk => frequencyTable_getD env data _ (by omega)
  -- the first selection holds the least frequency of the pattern
  have hmin : ∀ p, p + ngramSize ≤ (env.stringsToLower q.Pattern).length →
      freqAt env data (env.stringsToLower q.Pattern) f
        ≤ freqAt env data (env.stringsToLower q.Pattern) p := by
    intro p hp
    have h := h1.1.2 p (by omega)
    rwa [hget f hf, hget p hp] at h
  -- away from the first selection, so does the second
  have hrest : ∀ p, p + ngramSize ≤ (env.stringsToLower q.Pattern).length → p ≠ f →
      freqAt env data (env.stringsToLower q.Pattern) s
        ≤ freqAt env data (env.stringsToLower q.Pattern) p := by
    intro p hp hpf
    by_cases hsf : s = f
    · rw [hsf]; exact hmin p hp
    · have h := second_le_rest _ h2 hsf p (by omega) hpf
      rwa [hget s hs, hget p hp] at h
  have hrun : getContentDocIterator env data rd q
      = readSelected env data rd q (env.stringsToLower q.Pattern)
          (swapSelected (f, s)).1 (swapSelected (f, s)).2 := by
    unfold getContentDocIterator
    simp only [frequencyScan_table env data _ hlen hall, hsel]
  by_cases hfs : f > s
  · have hsw : swapSelected (f, s) = (s, f) := by simp [swapSelected, hfs]
    rw [hsw] at hrun
    exact ⟨(f, s), s, f, hsel, hsw, hrun, hs, hf, Or.inr hmin,
      fun p hp hps hpf => ⟨hrest p hp hpf, hmin p hp⟩⟩
  · have hsw : swapSelected (f, s) = (f, s) := by simp [swapSelected, hfs]
    rw [hsw] at hrun
    exact ⟨(f, s), f, s, hsel, hsw, hrun, hf, hs, Or.inl hmin,
      fun p hp hpf _ => ⟨hmin p hp, hrest p hp hpf⟩⟩

/-! ## Content queries: geometry and the coverage flag (C5, C6, C7) -/

/-- A planned outcome without an error carries the planned iterator. -/
theorem plannedOutcome_it {φ : Type} (env : Env φ) (data : indexData) (rd : reader φ)
    (q : query.Substring) (str : List Nat) (a b : Nat)
    (herr : (plannedOutcome env data rd q str a b).err = none) :
    ∃ first last, (plannedOutcome env data rd q str a b).it
      = some (.ngramDoc (plannedIterator data q str a b first last)) := by
  simp only [plannedOutcome] at herr ⊢
  by_cases h1 : (env.readSectionBlob rd (sectionAt env data str a)).2.err = none
  · rw [if_neg (fun h => h h1)] at herr ⊢
    by_cases hab : a = b
    · rw [if_neg (fun h => h hab)]
      exact ⟨_, _, rfl⟩
    · rw [if_pos hab] at herr ⊢
      by_cases h2 : (env.readSectionBlob (env.readSectionBlob rd (sectionAt env data str a)).2
          (sectionAt env data str b)).2.err = none
      · rw [if_neg (fun h => h h2)]
        exact ⟨_, _, rfl⟩
      · rw [if_pos h2] at herr
        exact absurd herr h2
  · rw [if_pos h1] at herr
    exact absurd herr h1

/-- An iterator returned by `readSelected` went through `markCoversContent`
with its flag unset and its distance set to `lastI - firstI`. -/
theorem readSelected_it {φ : Type} (env : Env φ) (data : indexData) (rd : reader φ)
    (q : query.Substring) (str : List Nat) (a b : Nat) (out : Outcome φ)
    (it : ngramDocIterator) (hret : readSelected env data rd q str a b = some out)
    (hit : out.it = some (.ngramDoc it)) :
    ∃ input : ngramDocIterator, input.distance = subU32 b a ∧ input._coversContent = false ∧
      it = markCoversContent a b input := by
  unfold readSelected at hret
  split at hret
  · dsimp only at hret
    split at hret
    · simp only [Option.some.injEq] at hret
      subst hret
      simp at hit
    · split at hret
      · split at hret
        · simp only [Option.some.injEq] at hret
          subst hret
          simp at hit
        · simp only [Option.some.injEq] at hret
          subst hret
          simp only [Option.some.injEq, docIterator.ngramDoc.injEq] at hit
          exact ⟨_, rfl, rfl, hit.symm⟩
      · simp only [Option.some.injEq] at hret
        subst hret
        simp only [Option.some.injEq, docIterator.ngramDoc.injEq] at hit
        exact ⟨_, rfl, rfl, hit.symm⟩
  · cases hret

/-- C5: the planned geometry tiles the pattern. For a content query whose
lower-cased pattern has `L` bytes, `ngramSize ≤ L < 2 ^ 32`, with all n-gram
frequencies non-zero, `getContentDocIterator` does not panic, the selected
positions satisfy `firstI ≤ lastI ≤ L - ngramSize`, and when no reader error is
reported the returned iterator has `leftPad = firstI`,
`distance = lastI - firstI` and `rightPad = (L - ngramSize) - lastI` as
natural numbers (no `uint32` operation wrapped), so that
`leftPad + distance + ngramSize + rightPad = L`. -/
theorem planned_geometry_tiles {φ : Type} (env : Env φ) (data : indexData)
    (rd : reader φ) (q : query.Substring)
    (hlen : ngramSize ≤ (env.stringsToLower q.Pattern).length)
    (hL : (env.stringsToLower q.Pattern).length < 2 ^ 32)
    (hall : AllFrequent env data (env.stringsToLower q.Pattern)) :
    ∃ out sel firstI lastI,
      getContentDocIterator env data rd q = some out ∧
      selectNgrams (frequencyTable env data (env.stringsToLower q.Pattern)) = some sel ∧
      swapSelected sel = (firstI, lastI) ∧
      firstI ≤ lastI ∧ lastI ≤ (env.stringsToLower q.Pattern).length - ngramSize ∧
      (out.err = none →
        ∃ it, out.it = some (.ngramDoc it) ∧
          it.leftPad = firstI ∧
          it.distance = lastI - firstI ∧
          it.rightPad = ((env.stringsToLower q.Pattern).length - ngramSize) - lastI ∧
          it.leftPad + it.distance + ngramSize + it.rightPad
            = (env.stringsToLower q.Pattern).length) := by
  obtain ⟨f, s, hsel, hf, hs, _, _, hrun⟩ :=
    getContentDocIterator_planned env data rd q hlen hL hall
  refine ⟨_, (f, s), min f s, max f s, hrun, hsel, swapSelected_eq f s, by omega, by omega, ?_⟩
  intro herr
  obtain ⟨first, last, hit⟩ := plannedOutcome_it env data rd q _ _ _ herr
  exact ⟨_, hit, rfl, rfl, rfl, by simp only [plannedIterator]; omega⟩

/-- The flag that `markCoversContent` leaves on an iterator whose flag was
unset and whose distance is `lastI - firstI` says exactly that the condition
on its distance and pads holds. -/
theorem markCoversContent_flag (firstI lastI : Nat) (input : ngramDocIterator)
    (hd : input.distance = subU32 lastI firstI) (hc : input._coversContent = false) :
    (markCoversContent firstI lastI input)._coversContent = true ↔
      ((markCoversContent firstI lastI input).distance ≤ ngramSize ∧
        (markCoversContent firstI lastI input).leftPad = 0 ∧
        (markCoversContent firstI lastI input).rightPad = 0) := by
  unfold markCoversContent
  by_cases h : subU32 lastI firstI ≤ ngramSize ∧ input.leftPad = 0 ∧ input.rightPad = 0
  · rw [if_pos h]
    simpa [hd] using h
  · rw [if_neg h, hc, hd]
    simpa using h

/-- C6 (amended): for every content query for which `getContentDocIterator`
returns an iterator, the iterator's `coversContent` flag is true if and only
if every n-gram of the lower-cased pattern has a non-zero frequency and
`distance ≤ ngramSize`, `leftPad = 0` and `rightPad = 0`. -/
theorem coversContent_iff {φ : Type} (env : Env φ) (data : indexData) (rd : reader φ)
    (q : query.Substring) (out : Outcome φ) (it : ngramDocIterator)
    (hret : getContentDocIterator env data rd q = some out)
    (hit : out.it = some (.ngramDoc it)) :
    it._coversContent = true ↔
      (AllFrequent env data (env.stringsToLower q.Pattern) ∧
        it.distance ≤ ngramSize ∧ it.leftPad = 0 ∧ it.rightPad = 0) := by
  unfold getContentDocIterator at hret
  cases hscan : frequencyScan env data (env.stringsToLower q.Pattern) with
  | none => simp [hscan] at hret
  | some sc =>
    cases sc with
    | zero =>
      have hnot := not_allFrequent_of_zero env data _ hscan
      simp only [hscan, Option.some.injEq] at hret
      subst hret
      simp only [Option.some.injEq, docIterator.ngramDoc.injEq] at hit
      subst hit
      simp [hnot]
    | table fs =>
      have hall := allFrequent_of_table env data _ hscan
      simp only [hscan] at hret
      cases hsel : selectNgrams fs with
      | none => simp [hsel] at hret
      | some sel =>
        simp only [hsel] at hret
        obtain ⟨input, hd, hc, rfl⟩ := readSelected_it env data rd q _ _ _ out it hret hit
        rw [markCoversContent_flag _ _ _ hd hc]
        simp [hall]

/-- C7: single-n-gram patterns are fully covered. For a content query whose
lower-cased pattern has exactly `ngramSize` bytes, whose single n-gram has a
non-zero frequency and whose section read leaves no reader error,
`getContentDocIterator` selects `firstI = lastI = 0`, reads the reader exactly
once (the section of that n-gram), and returns no error and an iterator with
`distance = 0`, `leftPad = 0`, `rightPad = 0`, the last posting list equal to
the first, and the `coversContent` flag set. -/
theorem single_ngram_covers {φ : Type} (env : Env φ) (data : indexData) (rd : reader φ)
    (q : query.Substring)
    (hlen : (env.stringsToLower q.Pattern).length = ngramSize)
    (hfreq : freqAt env data (env.stringsToLower q.Pattern) 0 ≠ 0)
    (hread : (env.readSectionBlob rd
      (sectionAt env data (env.stringsToLower q.Pattern) 0)).2.err = none) :
    selectNgrams (frequencyTable env data (env.stringsToLower q.Pattern)) = some (0, 0) ∧
    getContentDocIterator env data rd q = some
      { it := some (.ngramDoc
          { query := q, leftPad := 0, rightPad := 0, distance := 0,
            first := env.fromDeltas (env.readSectionBlob rd
              (sectionAt env data (env.stringsToLower q.Pattern) 0)).1,
            last := env.fromDeltas (env.readSectionBlob rd
              (sectionAt env data (env.stringsToLower q.Pattern) 0)).1,
            ends := data.fileEnds, _coversContent := true }),
        err := none,
        rd := (env.readSectionBlob rd (sectionAt env data (env.stringsToLower q.Pattern) 0)).2,
        reads := [sectionAt env data (env.stringsToLower q.Pattern) 0] } := by
  have hall : AllFrequent env data (env.stringsToLower q.Pattern) := by
    intro i hi
    have hi0 : i = 0 := by omega
    rw [hi0]
    exact hfreq
  have hL : (env.stringsToLower q.Pattern).length < 2 ^ 32 := by
    rw [hlen]; exact ngramSize_lt_u32
  obtain ⟨f, s, hsel, hf, hs, _, _, hrun⟩ :=
    getContentDocIterator_planned env data rd q (by omega) hL hall
  have hf0 : f = 0 := by omega
  have hs0 : s = 0 := by omega
  subst hf0 hs0
  refine ⟨hsel, ?_⟩
  rw [hrun]
  simp only [plannedOutcome, Nat.min_self, Nat.max_self]
  rw [if_neg (fun h => h hread), if_neg (fun h => h rfl)]
  have hpad : (env.stringsToLower q.Pattern).length - ngramSize - 0 = 0 := by omega
  simp [plannedIterator, hpad]

/-! ## Content queries: evaluation on the sample inputs -/

theorem sample_abcd_allFrequent :
    AllFrequent memEnv sampleData (memEnv.stringsToLower abcdQuery.Pattern) := by
  intro i hi
  have h4 : (memEnv.stringsToLower abcdQuery.Pattern).length = 4 := by decide
  have hn : ngramSize = 3 := rfl
  rw [h4, hn] at hi
  have hi2 : i < 2 := by omega
  interval_cases i <;> decide

/-- Evaluation of C2 on `abce` over the sample store. -/
theorem getContentDocIterator_zero_frequency_witness :
    (∃ i, i + ngramSize ≤ (memEnv.stringsToLower abceQuery.Pattern).length ∧
      freqAt memEnv sampleData (memEnv.stringsToLower abceQuery.Pattern) i = 0) ∧
    ∃ it, getContentDocIterator memEnv sampleData sampleReader abceQuery
        = some { it := some (.ngramDoc it), err := none, rd := sampleReader, reads := [] } ∧
      it.first = [] ∧ it.last = [] ∧
      (¬ ∃ a b, a ∈ it.first ∧ b ∈ it.last ∧ b - a = it.distance) ∧
      ngramDocIterator.next toLower it = [] :=
  ⟨⟨1, by decide, by decide⟩,
   getContentDocIterator_zero_frequency memEnv sampleData sampleReader abceQuery toLower
     ⟨1, by decide, by decide⟩⟩

/-- C3 as stated fails: on `abcde` over a store where every n-gram has
frequency 1 the table is `[1, 1, 1]`, the code selects position 2 first and
position 1 second, while the lowest position attaining the minimum is 0 and the
lowest remaining position attaining the minimum of the rest is 0 as well. -/
theorem leftmost_wins_refuted :
    frequencyScan memEnv uniformData (memEnv.stringsToLower abcdeQuery.Pattern)
      = some (.table [1, 1, 1]) ∧
    selectNgrams [1, 1, 1] = some (2, 1) ∧
    ¬ IsLeftmostMin [1, 1, 1] 2 ∧ ¬ IsLeftmostMinOfRest [1, 1, 1] 2 1 := by
  refine ⟨by decide, by decide, ?_, ?_⟩
  · intro h
    have h0 : AttainsMin [1, 1, 1] 0 := by
      refine ⟨by decide, ?_⟩
      intro k hk
      have hk3 : k < 3 := hk
      interval_cases k <;> decide
    have := h.2 0 h0
    omega
  · intro h
    have h0 : AttainsMinOfRest [1, 1, 1] 2 0 := by
      refine ⟨by decide, by decide, ?_⟩
      intro k hk _
      have hk3 : k < 3 := hk
      interval_cases k <;> decide
    have := h.2 0 h0
    omega

/-- Evaluation of C3 (amended) on `abcd` over the sample store. -/
theorem selection_rightmost_wins_witness :
    ngramSize ≤ (memEnv.stringsToLower abcdQuery.Pattern).length ∧
    (memEnv.stringsToLower abcdQuery.Pattern).length < 2 ^ 32 ∧
    AllFrequent memEnv sampleData (memEnv.stringsToLower abcdQuery.Pattern) ∧
    ∃ firstI lastI,
      selectNgrams (frequencyTable memEnv sampleData (memEnv.stringsToLower abcdQuery.Pattern))
        = some (firstI, lastI) ∧
      IsRightmostMin (frequencyTable memEnv sampleData (memEnv.stringsToLower abcdQuery.Pattern))
        firstI := by
  refine ⟨by decide, by decide, sample_abcd_allFrequent, ?_⟩
  obtain ⟨f, s, _, hsel, _, _, h1, _, _⟩ :=
    selection_rightmost_wins memEnv sampleData abcdQuery (by decide) (by decide)
      sample_abcd_allFrequent
  exact ⟨f, s, hsel, h1⟩

/-- Evaluation of C4 on `abcd` over the sample store. -/
theorem selected_are_two_rarest_witness :
    ngramSize ≤ (memEnv.stringsToLower abcdQuery.Pattern).length ∧
    (memEnv.stringsToLower abcdQuery.Pattern).length < 2 ^ 32 ∧
    AllFrequent memEnv sampleData (memEnv.stringsToLower abcdQuery.Pattern) ∧
    ∃ firstI lastI,
      getContentDocIterator memEnv sampleData sampleReader abcdQuery
        = readSelected memEnv sampleData sampleReader abcdQuery
            (memEnv.stringsToLower abcdQuery.Pattern) firstI lastI ∧
      ((∀ p, p + ngramSize ≤ (memEnv.stringsToLower abcdQuery.Pattern).length →
          freqAt memEnv sampleData (memEnv.stringsToLower abcdQuery.Pattern) firstI
            ≤ freqAt memEnv sampleData (memEnv.stringsToLower abcdQuery.Pattern) p) ∨
       (∀ p, p + ngramSize ≤ (memEnv.stringsToLower abcdQuery.Pattern).length →
          freqAt memEnv sampleData (memEnv.stringsToLower abcdQuery.Pattern) lastI
            ≤ freqAt memEnv sampleData (memEnv.stringsToLower abcdQuery.Pattern) p)) := by
  refine ⟨by decide, by decide, sample_abcd_allFrequent, ?_⟩
  obtain ⟨_, f, l, _, _, hrun, _, _, hmin, _⟩ :=
    selected_are_two_rarest memEnv sampleData sampleReader abcdQuery (by decide) (by decide)
      sample_abcd_allFrequent
  exact ⟨f, l, hrun, hmin⟩

/-- Evaluation of C5 on `abcd` over the sample store: the outcome has no error. -/
theorem planned_geometry_tiles_witness :
    ngramSize ≤ (memEnv.stringsToLower abcdQuery.Pattern).length ∧
    (memEnv.stringsToLower abcdQuery.Pattern).length < 2 ^ 32 ∧
    AllFrequent memEnv sampleData (memEnv.stringsToLower abcdQuery.Pattern) ∧
    ∃ it, (getContentDocIterator memEnv sampleData sampleReader abcdQuery).map (fun o => o.it)
        = some (some (.ngramDoc it)) ∧
      it.leftPad + it.distance + ngramSize + it.rightPad
        = (memEnv.stringsToLower abcdQuery.Pattern).length := by
  refine ⟨by decide, by decide, sample_abcd_allFrequent, ?_⟩
  obtain ⟨out, _, _, _, hrun, _, _, _, _, hgeo⟩ :=
    planned_geometry_tiles memEnv sampleData sampleReader abcdQuery (by decide) (by decide)
      sample_abcd_allFrequent
  have herr : out.err = none := by
    have h : (getContentDocIterator memEnv sampleData sampleReader abcdQuery).map
        (fun o => o.err) = some none := by decide
    rw [hrun] at h
    simpa using h
  obtain ⟨it, hit, _, _, _, hsum⟩ := hgeo herr
  exact ⟨it, by rw [hrun]; simp [hit], hsum⟩

/-- C6 as stated fails: for `abce` over the sample store the n-gram `bce` has
frequency zero, `getContentDocIterator` returns an iterator and no error, the
iterator has `distance = 0 ≤ ngramSize`, `leftPad = 0` and `rightPad = 0`, and
its `coversContent` flag is false. -/
theorem coversContent_iff_refuted :
    ∃ out it, getContentDocIterator memEnv sampleData sampleReader abceQuery = some out ∧
      out.it = some (.ngramDoc it) ∧ out.err = none ∧
      it._coversContent = false ∧ it.distance ≤ ngramSize ∧ it.leftPad = 0 ∧ it.rightPad = 0 ∧
      ¬ (it._coversContent = true ↔
          (it.distance ≤ ngramSize ∧ it.leftPad = 0 ∧ it.rightPad = 0)) :=
  ⟨_, _, rfl, rfl, rfl, rfl, by decide, rfl, rfl, by decide⟩

/-- Evaluation of C6 (amended) on `abc` over the sample store. -/
theorem coversContent_iff_witness :
    getContentDocIterator memEnv sampleData sampleReader abcQuery = some abcOutcome ∧
    abcOutcome.it = some (.ngramDoc abcIterator) ∧
    (abcIterator._coversContent = true ↔
      (AllFrequent memEnv sampleData (memEnv.stringsToLower abcQuery.Pattern) ∧
        abcIterator.distance ≤ ngramSize ∧ abcIterator.leftPad = 0 ∧
        abcIterator.rightPad = 0)) :=
  ⟨rfl, rfl, coversContent_iff memEnv sampleData sampleReader abcQuery abcOutcome abcIterator
    rfl rfl⟩

/-- Evaluation of C7 on `abc` over the sample store. -/
theorem single_ngram_covers_witness :
    (memEnv.stringsToLower abcQuery.Pattern).length = ngramSize ∧
    freqAt memEnv sampleData (memEnv.stringsToLower abcQuery.Pattern) 0 ≠ 0 ∧
    (memEnv.readSectionBlob sampleReader
      (sectionAt memEnv sampleData (memEnv.stringsToLower abcQuery.Pattern) 0)).2.err = none ∧
    selectNgrams (frequencyTable memEnv sampleData (memEnv.stringsToLower abcQuery.Pattern))
      = some (0, 0) ∧
    (getContentDocIterator memEnv sampleData sampleReader abcQuery).map (fun o => o.reads.length)
      = some 1 := by
  refine ⟨by decide, by decide, by decide, ?_⟩
  obtain ⟨hsel, hrun⟩ :=
    single_ngram_covers memEnv sampleData sampleReader abcQuery (by decide) (by decide)
      (by decide)
  exact ⟨hsel, by rw [hrun]; rfl⟩

/-! ## Filename search: `bytes.Index` against the first occurrence -/

theorem startsWith_iff (s sep : List Nat) : startsWith s sep = true ↔ OccursAt s sep 0 := by
  induction s generalizing sep with
  | nil =>
    cases sep with
    | nil => simp [startsWith, OccursAt]
    | cons b sep => simp [startsWith, OccursAt]
  | cons a s ih =>
    cases sep with
    | nil => simp [startsWith, OccursAt]
    | cons b sep =>
      have h := ih sep
      simp only [OccursAt, Nat.zero_add, List.drop_zero] at h
      simp only [startsWith, Bool.and_eq_true, beq_iff_eq, h, OccursAt, Nat.zero_add,
        List.drop_zero, List.length_cons, List.take_succ_cons, List.cons.injEq]
      constructor
      · rintro ⟨hab, hl, ht⟩
        exact ⟨by omega, hab, ht⟩
      · rintro ⟨hl, hab, ht⟩
        exact ⟨hab, by omega, ht⟩

theorem occursAt_succ (c : Nat) (s sep : List Nat) (k : Nat) :
    OccursAt (c :: s) sep (k + 1) ↔ OccursAt s sep k := by
  simp only [OccursAt, List.length_cons, List.drop_succ_cons]
  constructor
  · rintro ⟨h1, h2⟩
    exact ⟨by omega, h2⟩
  · rintro ⟨h1, h2⟩
    exact ⟨by omega, h2⟩

theorem firstOccurrence_cons (c : Nat) (s sep : List Nat) :
    firstOccurrence (c :: s) sep
      = if startsWith (c :: s) sep = true then some 0
        else (firstOccurrence s sep).map (· + 1) := by
  unfold firstOccurrence
  rw [List.length_cons, List.range_succ_eq_map, List.find?_cons]
  by_cases h0 : OccursAt (c :: s) sep 0
  · rw [if_pos ((startsWith_iff _ _).mpr h0)]
    simp [h0]
  · rw [if_neg (fun h => h0 ((startsWith_iff _ _).mp h))]
    simp only [h0, decide_False]
    rw [List.find?_map]
    congr 2
    funext k
    simp [occursAt_succ]

/-- Go's `bytes.Index` returns the smallest index at which the pattern occurs,
and -1 when it does not occur. -/
theorem bytesIndex_eq (s sep : List Nat) :
    bytesIndex s sep = match firstOccurrence s sep with
      | some k => (k : Int)
      | none => -1 := by
  induction s with
  | nil =>
    have hr : List.range ([] : List Nat).length.succ = [0] := rfl
    unfold bytesIndex firstOccurrence
    rw [hr]
    by_cases h0 : OccursAt [] sep 0
    · rw [if_pos ((startsWith_iff _ _).mpr h0)]
      simp [List.find?, h0]
    · rw [if_neg (fun h => h0 ((startsWith_iff _ _).mp h))]
      simp [List.find?, h0]
  | cons c s ih =>
    unfold bytesIndex
    rw [firstOccurrence_cons]
    by_cases h0 : startsWith (c :: s) sep = true
    · simp only [h0, if_true]
      rfl
    · simp only [h0, if_false, Bool.false_eq_true]
      rw [ih]
      cases firstOccurrence s sep with
      | none => simp
      | some k =>
        simp only [Option.map_some']
        have : (k : Int) ≠ -1 := by omega
        simp [this]

theorem firstOccurrence_le {name pat : List Nat} {k : Nat}
    (h : firstOccurrence name pat = some k) : k ≤ name.length := by
  unfold firstOccurrence at h
  have := List.mem_of_find?_eq_some h
  simp at this
  omega

/-- The smallest index of an occurrence, stated without the search. -/
theorem firstOccurrence_eq_some_iff (name pat : List Nat) (k : Nat) :
    firstOccurrence name pat = some k ↔
      OccursAt name pat k ∧ ∀ j, j < k → ¬ OccursAt name pat j := by
  induction name generalizing k with
  | nil =>
    have hr : List.range ([] : List Nat).length.succ = [0] := rfl
    unfold firstOccurrence
    rw [hr]
    by_cases h0 : OccursAt [] pat 0
    · simp only [List.find?, h0, decide_True, Option.some.injEq]
      constructor
      · rintro rfl
        exact ⟨h0, fun j hj => by omega⟩
      · rintro ⟨hk, _⟩
        have := hk.1
        simp at this
        omega
    · simp only [List.find?, h0, decide_False, reduceCtorEq, false_iff, not_and]
      intro hk
      have := hk.1
      simp at this
      have hk0 : k = 0 := by omega
      subst hk0
      exact absurd hk h0
  | cons c s ih =>
    rw [firstOccurrence_cons]
    by_cases h0 : startsWith (c :: s) pat = true
    · have h0' := (startsWith_iff _ _).mp h0
      simp only [h0, if_true, Option.some.injEq]
      constructor
      · rintro rfl
        exact ⟨h0', fun j hj => by omega⟩
      · rintro ⟨_, hk⟩
        by_contra hne
        exact hk 0 (by omega) h0'
    · have h0' : ¬ OccursAt (c :: s) pat 0 := fun h => h0 ((startsWith_iff _ _).mpr h)
      simp only [h0, if_false, Bool.false_eq_true]
      cases k with
      | zero =>
        constructor
        · intro h
          cases hfo : firstOccurrence s pat with
          | none => simp [hfo] at h
          | some k2 => simp [hfo] at h
        · rintro ⟨hk, _⟩
          exact absurd hk h0'
      | succ k =>
        rw [occursAt_succ]
        have hmap : Option.map (· + 1) (firstOccurrence s pat) = some (k + 1)
            ↔ firstOccurrence s pat = some k := by
          cases firstOccurrence s pat with
          | none => simp
          | some k2 => simp
        rw [hmap, ih k]
        constructor
        · rintro ⟨hk, hleast⟩
          refine ⟨hk, ?_⟩
          intro j hj
          cases j with
          | zero => exact h0'
          | succ j =>
            rw [occursAt_succ]
            exact hleast j (by omega)
        · rintro ⟨hk, hleast⟩
          refine ⟨hk, ?_⟩
          intro j hj hocc
          exact hleast (j + 1) (by omega) ((occursAt_succ c s pat j).mpr hocc)

/-! ## Filename search: the brute-force loop (C8) -/

theorem getElem?_of_drop_eq {l : List Nat} {i a : Nat} {t : List Nat}
    (h : l.drop i = a :: t) : l[i]? = some a := by
  have h0 := List.getElem?_drop l i 0
  rw [h] at h0
  simpa using h0.symm

theorem drop_succ_of_drop_eq {l : List Nat} {i a : Nat} {t : List Nat}
    (h : l.drop i = a :: t) : l.drop (i + 1) = t := by
  have h1 : l.drop (i + 1) = (l.drop i).drop 1 := by
    simp [List.drop_drop, Nat.add_comm]
  rw [h1, h]
  simp

theorem mem_of_drop_eq {l : List Nat} {i a : Nat} {t : List Nat}
    (h : l.drop i = a :: t) {x : Nat} (hx : x ∈ a :: t) : x ∈ l :=
  List.mem_of_mem_drop (h ▸ hx)

/-- Inside a well-formed filename table, `fileName(i)` is the slice between
two consecutive delimiters. -/
theorem fileName_of_drop (data : indexData) (hwf : FileNamesWF data) {i last off : Nat}
    {offs : List Nat} (hdrop : data.fileNameIndex.drop i = last :: off :: offs) :
    last ≤ off ∧ off ≤ data.fileNameContent.length ∧ off < 2 ^ 32 ∧ i + 1 < 2 ^ 32 ∧
    data.fileName i = some ((data.fileNameContent.drop last).take (off - last)) ∧
    goSlice data.fileNameContent last off
      = some ((data.fileNameContent.drop last).take (off - last)) := by
  have hlen : (data.fileNameIndex.drop i).length = offs.length + 2 := by rw [hdrop]; rfl
  rw [List.length_drop] at hlen
  have hcount := hwf.count
  have hle : last ≤ off := by
    have hc := hwf.mono.drop i
    rw [hdrop] at hc
    exact (List.chain'_cons.mp hc).1
  have hmem : off ∈ data.fileNameIndex := mem_of_drop_eq hdrop (by simp)
  have hb := hwf.bound off hmem
  have hi := getElem?_of_drop_eq hdrop
  have hi1 := getElem?_of_drop_eq (drop_succ_of_drop_eq hdrop)
  have hslice := goSlice_eq_some data.fileNameContent hle hb
  refine ⟨hle, hb, hwf.isU32 off hmem, by omega, ?_, hslice⟩
  unfold indexData.fileName goIndex
  rw [addU32_of_lt (by omega)]
  simp only [List.get?_eq_getElem?, hi, hi1]
  exact hslice

/-- The loop of `getBruteForceFileNameDocIterator`, started at file `i` with
the candidates `cands`, appends the reference candidates of the files from
`i` on. -/
theorem bruteForceLoop_eq {φ : Type} (env : Env φ) (data : indexData) (q : query.Substring)
    (hwf : FileNamesWF data)
    (hlow : (env.toLower q.Pattern).length = q.Pattern.length)
    (hpat : q.Pattern.length < 2 ^ 32) :
    ∀ (offs : List Nat) (i last : Nat) (cands : List candidateMatch),
      data.fileNameIndex.drop i = last :: offs →
      bruteForceLoop data q (env.toLower q.Pattern) offs i last cands
        = some (cands ++
            (List.range' i offs.length).filterMap (referenceCandidateOf env data q)) := by
  intro offs
  induction offs with
  | nil =>
    intro i last cands _
    simp [bruteForceLoop]
  | cons off offs ih =>
    intro i last cands hdrop
    obtain ⟨hle, hb, hoff, hi32, hname, hslice⟩ := fileName_of_drop data hwf hdrop
    have hrec := ih (i + 1) off
    have hnext := drop_succ_of_drop_eq hdrop
    have href : referenceCandidateOf env data q i
        = match firstOccurrence ((data.fileNameContent.drop last).take (off - last))
            (env.toLower q.Pattern) with
          | none => none
          | some k => some (referenceCandidate env q i k) := by
      unfold referenceCandidateOf
      rw [hname]
    unfold bruteForceLoop
    simp only [hslice, bytesIndex_eq]
    rw [List.length_cons, List.range'_succ, List.filterMap_cons, href]
    cases hfo : firstOccurrence ((data.fileNameContent.drop last).take (off - last))
        (env.toLower q.Pattern) with
    | none =>
      simp only [if_true]
      exact hrec cands hnext
    | some k =>
      have hk := firstOccurrence_le hfo
      have hkl : k ≤ off - last := by
        have : ((data.fileNameContent.drop last).take (off - last)).length ≤ off - last :=
          List.length_take_le _ _
        omega
      have hne : ¬ ((k : Int) = -1) := by omega
      simp only [hne, if_false, Int.toNat_ofNat]
      rw [hrec _ hnext, u32_of_lt (show i < 2 ^ 32 by omega),
        u32_of_lt (show k < 2 ^ 32 by omega), hlow, u32_of_lt hpat, List.append_assoc]
      rfl

/-- For a well-formed filename table and a `toLower` that keeps the length of
a pattern shorter than `2 ^ 32` bytes, `getBruteForceFileNameDocIterator`
returns the reference candidates. -/
theorem getBruteForce_eq {φ : Type} (env : Env φ) (data : indexData)
    (q : query.Substring) (hwf : FileNamesWF data)
    (hlow : (env.toLower q.Pattern).length = q.Pattern.length)
    (hshort : q.Pattern.length < ngramSize) :
    getBruteForceFileNameDocIterator env data q
      = some (.bruteForce { cands := bruteForceReference env data q }) := by
  have hn := ngramSize_lt_u32
  cases hidx : data.fileNameIndex with
  | nil =>
    have := hwf.start
    rw [hidx] at this
    cases this
  | cons a offs =>
    have ha : a = 0 := by
      have := hwf.start
      rw [hidx] at this
      simpa using this
    subst ha
    have hloop := bruteForceLoop_eq env data q hwf hlow (by omega) offs 0 0 []
      (by rw [hidx]; rfl)
    have hs : goSlice (0 :: offs) 1 (offs.length + 1) = some offs := by
      rw [goSlice_eq_some _ (by omega) (by simp)]
      simp
    unfold getBruteForceFileNameDocIterator bruteForceReference
    simp only [hidx, hs, hloop, List.nil_append, List.length_cons, Nat.add_sub_cancel,
      List.range_eq_range']


/-- C8: brute-force filename search equals its reference definition. For a
store whose `fileNameIndex` (at most `2 ^ 32` values of type `uint32`) is
non-decreasing, starts at 0 and stays within `fileNameContent`, a `toLower`
that keeps the byte length of the pattern, and a pattern shorter than
`ngramSize`, `getBruteForceFileNameDocIterator` does not panic and its
candidate list is the reference list: in ascending file order one candidate
for each file whose name `fileName(i)` contains the lower-cased pattern, with
`fileName = true`, `file = i`, `offset` the smallest index at which the
lower-cased pattern occurs in `fileName(i)` and `matchSz` the byte length of
the pattern, and none for the other files. -/
theorem bruteForce_eq_reference {φ : Type} (env : Env φ) (data : indexData)
    (q : query.Substring) (hwf : FileNamesWF data)
    (hlow : (env.toLower q.Pattern).length = q.Pattern.length)
    (hshort : q.Pattern.length < ngramSize) :
    getBruteForceFileNameDocIterator env data q
      = some (.bruteForce { cands := bruteForceReference env data q }) :=
  getBruteForce_eq env data q hwf hlow hshort

theorem sampleData_fileNamesWF : FileNamesWF sampleData :=
  ⟨by decide, by decide, by simp [sampleData], by decide, by decide⟩

/-- Evaluation of C8 on the pattern `ab` over the files `README.md` and
`cab.go`: exactly one candidate, for file 1 at offset 1. -/
theorem bruteForce_eq_reference_witness :
    FileNamesWF sampleData ∧
    (memEnv.toLower abFileQuery.Pattern).length = abFileQuery.Pattern.length ∧
    abFileQuery.Pattern.length < ngramSize ∧
    getBruteForceFileNameDocIterator memEnv sampleData abFileQuery
      = some (.bruteForce { cands := bruteForceReference memEnv sampleData abFileQuery }) ∧
    bruteForceReference memEnv sampleData abFileQuery = [abFileCandidate] :=
  ⟨sampleData_fileNamesWF, by decide, by decide,
   bruteForce_eq_reference memEnv sampleData abFileQuery sampleData_fileNamesWF
     (by decide) (by decide),
   by decide⟩

/-! ## The brute-force iterator (C9) -/

/-- C9 (amended): every call of `next` on a `bruteForceIter`, the first and
every later one, returns the whole pre-computed candidate batch and leaves the
iterator as it was. -/
theorem bruteForceIter_next_always_batch (i : bruteForceIter) (k : Nat) :
    (bruteForceIter.next i).1 = i.cands ∧ (bruteForceIter.next i).2 = i ∧
    bruteForceIter.nextCalls k i = List.replicate k i.cands := by
  refine ⟨rfl, rfl, ?_⟩
  induction k with
  | zero => rfl
  | succ k ih =>
    simp only [bruteForceIter.nextCalls, bruteForceIter.next, List.replicate_succ]
    rw [ih]

/-- C9 as stated fails: the iterator built for `ab` over the sample store
returns its non-empty batch on the second call of `next` as on the first. -/
theorem single_shot_refuted :
    getBruteForceFileNameDocIterator memEnv sampleData abFileQuery
      = some (.bruteForce abFileIter) ∧
    bruteForceIter.nextCalls 2 abFileIter = [[abFileCandidate], [abFileCandidate]] ∧
    (bruteForceIter.next (bruteForceIter.next abFileIter).2).1 ≠ [] := by
  decide

/-! ## `fileName` (C10) -/

/-- C10: for a store whose `fileNameIndex` is non-decreasing and bounded by
`len(fileNameContent)` and an index `i` with `i + 1 < len(fileNameIndex)`
(and `i + 1` within `uint32`), `fileName(i)` does not panic and is exactly the
bytes of `fileNameContent` from `fileNameIndex[i]` (inclusive) to
`fileNameIndex[i+1]` (exclusive): it has `fileNameIndex[i+1] - fileNameIndex[i]`
bytes and its byte `k` is byte `fileNameIndex[i] + k` of the content. This
includes the last valid index `i = len(fileNameIndex) - 2`. -/
theorem fileName_eq_slice (d : indexData) (i : Nat)
    (hmono : List.Chain' (· ≤ ·) d.fileNameIndex)
    (hbound : ∀ x ∈ d.fileNameIndex, x ≤ d.fileNameContent.length)
    (hlt : i + 1 < d.fileNameIndex.length) (h32 : i + 1 < 2 ^ 32) :
    ∃ lo hi name,
      d.fileNameIndex[i]? = some lo ∧ d.fileNameIndex[i + 1]? = some hi ∧ lo ≤ hi ∧
      d.fileName i = some name ∧ name.length = hi - lo ∧
      ∀ k, k < hi - lo → name[k]? = d.fileNameContent[lo + k]? := by
  have hd1 : d.fileNameIndex.drop i
      = d.fileNameIndex[i] :: d.fileNameIndex.drop (i + 1) :=
    List.drop_eq_getElem_cons (by omega)
  have hd2 : d.fileNameIndex.drop (i + 1)
      = d.fileNameIndex[i + 1] :: d.fileNameIndex.drop (i + 1 + 1) :=
    List.drop_eq_getElem_cons hlt
  rw [hd2] at hd1
  have hle : d.fileNameIndex[i] ≤ d.fileNameIndex[i + 1] := by
    have hc := hmono.drop i
    rw [hd1] at hc
    exact (List.chain'_cons.mp hc).1
  have hb : d.fileNameIndex[i + 1] ≤ d.fileNameContent.length :=
    hbound _ (List.getElem_mem _)
  have hi0 : d.fileNameIndex[i]? = some d.fileNameIndex[i] := List.getElem?_eq_getElem _
  have hi1 : d.fileNameIndex[i + 1]? = some d.fileNameIndex[i + 1] :=
    List.getElem?_eq_getElem _
  refine ⟨d.fileNameIndex[i], d.fileNameIndex[i + 1],
    (d.fileNameContent.drop d.fileNameIndex[i]).take (d.fileNameIndex[i + 1] - d.fileNameIndex[i]),
    hi0, hi1, hle, ?_, ?_, ?_⟩
  · unfold indexData.fileName goIndex
    rw [addU32_of_lt h32]
    simp only [List.get?_eq_getElem?, hi0, hi1]
    exact goSlice_eq_some _ hle hb
  · rw [List.length_take, List.length_drop]
    omega
  · intro k hk
    rw [List.getElem?_take_of_lt hk, List.getElem?_drop]

/-- Evaluation of C10 at the last valid index of the sample store: the final
name `cab.go`. -/
theorem fileName_eq_slice_witness :
    List.Chain' (· ≤ ·) sampleData.fileNameIndex ∧
    (∀ x ∈ sampleData.fileNameIndex, x ≤ sampleData.fileNameContent.length) ∧
    (sampleData.fileNameIndex.length - 2) + 1 < sampleData.fileNameIndex.length ∧
    (sampleData.fileNameIndex.length - 2) + 1 < 2 ^ 32 ∧
    (∃ lo hi name,
      sampleData.fileNameIndex[sampleData.fileNameIndex.length - 2]? = some lo ∧
      sampleData.fileNameIndex[sampleData.fileNameIndex.length - 2 + 1]? = some hi ∧ lo ≤ hi ∧
      sampleData.fileName (sampleData.fileNameIndex.length - 2) = some name ∧
      name.length = hi - lo ∧
      ∀ k, k < hi - lo → name[k]? = sampleData.fileNameContent[lo + k]?) ∧
    sampleData.fileName (sampleData.fileNameIndex.length - 2) = some [99, 97, 98, 46, 103, 111] :=
  ⟨by simp [sampleData], by decide, by decide, by decide,
   fileName_eq_slice sampleData (sampleData.fileNameIndex.length - 2) (by simp [sampleData])
     (by decide) (by decide) (by decide),
   by decide⟩

/-! ## `getDocIterator` (C1) -/

/-- A content query shorter than `ngramSize` bytes gets an error and no iterator. -/
theorem getDocIterator_short_content {φ : Type} (env : Env φ) (data : indexData)
    (rd : reader φ) (q : query.Substring) (hfn : q.FileName = false)
    (hshort : q.Pattern.length < ngramSize) :
    getDocIterator env data rd q
      = some { it := none, err := some (.patternTooShort q.Pattern ngramSize),
               rd := rd, reads := [] } := by
  unfold getDocIterator
  simp [hfn, hshort]

/-- A filename query gets an iterator and no error when its pattern is shorter
than `ngramSize`, or when lower-casing leaves it at least `ngramSize` bytes. -/
theorem getDocIterator_fileName {φ : Type} (env : Env φ) (data : indexData)
    (rd : reader φ) (q : query.Substring) (hfn : q.FileName = true)
    (hwf : FileNamesWF data)
    (hlow : (env.toLower q.Pattern).length = q.Pattern.length)
    (hlen : q.Pattern.length < ngramSize ∨ ngramSize ≤ (env.stringsToLower q.Pattern).length) :
    ∃ it, getDocIterator env data rd q
      = some { it := some it, err := none, rd := rd, reads := [] } := by
  unfold getDocIterator getFileNameDocIterator
  simp only [hfn, if_true]
  by_cases hshort : q.Pattern.length < ngramSize
  · rw [if_pos hshort, getBruteForce_eq env data q hwf hlow hshort]
    exact ⟨_, rfl⟩
  · rw [if_neg hshort]
    have hl : ngramSize ≤ (env.stringsToLower q.Pattern).length := by
      rcases hlen with h | h
      · exact absurd h hshort
      · exact h
    have hne : 1 ≤ data.fileNameIndex.length := by
      cases hidx : data.fileNameIndex with
      | nil =>
        have := hwf.start
        rw [hidx] at this
        cases this
      | cons a t => simp
    rw [goSlice_eq_some data.fileNameIndex hne (Nat.le_refl _),
      goSlice_eq_some (env.stringsToLower q.Pattern) (Nat.zero_le _) hl,
      if_neg (by omega),
      goSlice_eq_some (env.stringsToLower q.Pattern) (Nat.sub_le _ _) (Nat.le_refl _)]
    exact ⟨_, rfl⟩

/-- C1 (failing input): the filename query for the Kelvin sign U+212A has a
pattern of three bytes, so it passes the length check of
`getFileNameDocIterator`; `strings.ToLower` turns it into the one-byte string
`k`, and the slice `str[:ngramSize]` panics. This holds over the well-formed
sample store and over every other store: `getDocIterator` returns neither an
iterator nor an error. -/
theorem getDocIterator_kelvin_fileName_panics :
    kelvinFileQuery.FileName = true ∧
    ¬ kelvinFileQuery.Pattern.length < ngramSize ∧
    memEnv.stringsToLower kelvinFileQuery.Pattern = [0x6B] ∧
    FileNamesWF sampleData ∧
    getDocIterator memEnv sampleData sampleReader kelvinFileQuery = none ∧
    ∀ (data : indexData) (rd : reader (List Nat)),
      getDocIterator memEnv data rd kelvinFileQuery = none := by
  refine ⟨rfl, by decide, by decide, sampleData_fileNamesWF, rfl, ?_⟩
  intro data rd
  have hs : memEnv.stringsToLower kelvinFileQuery.Pattern = [0x6B] := by decide
  have hg : goSlice [0x6B] 0 ngramSize = none := by decide
  have hn : ¬ kelvinFileQuery.Pattern.length < ngramSize := by decide
  unfold getDocIterator getFileNameDocIterator
  simp only [show kelvinFileQuery.FileName = true from rfl, if_true, if_neg hn, hs, hg]
  cases goSlice data.fileNameIndex 1 data.fileNameIndex.length <;> rfl

/-! ## Filename queries of at least `ngramSize` bytes (C11) -/

/-- C11: for a filename query whose pattern has `L ≥ ngramSize` bytes
(`L < 2 ^ 32`), lower-casing preserving the length, over a store whose
`fileNameIndex` is not empty, `getFileNameDocIterator` returns an n-gram
iterator with `first` the filename posting list of the n-gram made of the first
`ngramSize` bytes of the lower-cased pattern, `last` the filename posting list
of the n-gram made of its last `ngramSize` bytes, `distance = L - ngramSize`,
`leftPad = rightPad = 0` and `ends` the `fileNameIndex` without its first
element; the content frequencies (`data.ngrams`) play no role. -/
theorem getFileNameDocIterator_first_last {φ : Type} (env : Env φ) (data : indexData)
    (q : query.Substring)
    (hlen : ngramSize ≤ q.Pattern.length)
    (hlow : (env.stringsToLower q.Pattern).length = q.Pattern.length)
    (hL : q.Pattern.length < 2 ^ 32)
    (hidx : data.fileNameIndex ≠ []) :
    getFileNameDocIterator env data q = some (.ngramDoc
      { query := q, leftPad := 0, rightPad := 0,
        distance := q.Pattern.length - ngramSize,
        ends := data.fileNameIndex.tail,
        first := data.fileNameNgramsAt
          (env.stringToNGram ((env.stringsToLower q.Pattern).take ngramSize)),
        last := data.fileNameNgramsAt
          (env.stringToNGram
            ((env.stringsToLower q.Pattern).drop (q.Pattern.length - ngramSize))),
        _coversContent := false }) ∧
    ∀ g, getFileNameDocIterator env { data with ngrams := g } q
      = getFileNameDocIterator env data q := by
  refine ⟨?_, fun g => by
    unfold getFileNameDocIterator
    rw [if_neg (by omega), if_neg (by omega)]
    rfl⟩
  have hne : 1 ≤ data.fileNameIndex.length := by
    cases h : data.fileNameIndex with
    | nil => exact absurd h hidx
    | cons a t => simp
  have hends : goSlice data.fileNameIndex 1 data.fileNameIndex.length
      = some data.fileNameIndex.tail := by
    rw [goSlice_eq_some _ hne (Nat.le_refl _)]
    simp
  have hfirst : goSlice (env.stringsToLower q.Pattern) 0 ngramSize
      = some ((env.stringsToLower q.Pattern).take ngramSize) := by
    rw [goSlice_eq_some _ (Nat.zero_le _) (by omega)]
    simp
  have hlast : goSlice (env.stringsToLower q.Pattern)
      ((env.stringsToLower q.Pattern).length - ngramSize) (env.stringsToLower q.Pattern).length
      = some ((env.stringsToLower q.Pattern).drop (q.Pattern.length - ngramSize)) := by
    rw [goSlice_eq_some _ (Nat.sub_le _ _) (Nat.le_refl _), hlow]
    congr 1
    apply List.take_of_length_le
    rw [List.length_drop]
    omega
  have hdist : subU32 (u32 (env.stringsToLower q.Pattern).length) ngramSize
      = q.Pattern.length - ngramSize := by
    rw [hlow, u32_of_lt hL]
    exact subU32_of_le hlen hL
  unfold getFileNameDocIterator
  rw [if_neg (by omega)]
  simp only [hends, hfirst, if_neg (show ¬ (env.stringsToLower q.Pattern).length < ngramSize by omega),
    hlast, hdist]

/-- Evaluation of C11 on `cab.` over the sample store with a filename index. -/
theorem getFileNameDocIterator_first_last_witness :
    ngramSize ≤ cabDotFileQuery.Pattern.length ∧
    (memEnv.stringsToLower cabDotFileQuery.Pattern).length = cabDotFileQuery.Pattern.length ∧
    cabDotFileQuery.Pattern.length < 2 ^ 32 ∧
    namesData.fileNameIndex ≠ [] ∧
    getFileNameDocIterator memEnv namesData cabDotFileQuery = some (.ngramDoc
      { query := cabDotFileQuery, leftPad := 0, rightPad := 0, distance := 1,
        ends := [9, 15], first := [9], last := [10], _coversContent := false }) := by
  refine ⟨by decide, by decide, by decide, by decide, ?_⟩
  rw [(getFileNameDocIterator_first_last memEnv namesData cabDotFileQuery (by decide) (by decide)
    (by decide) (by decide)).1]
  decide

/-! ## Reader failures (C12) -/

/-- C12: reader failures are propagated unchanged. For a content query whose
lower-cased pattern has at least `ngramSize` and fewer than `2 ^ 32` bytes and
whose n-gram frequencies are all non-zero, with `firstI ≤ lastI` the selected
positions: if the reader's error is set after the read of the section of
`firstI`, `getContentDocIterator` returns that error and no iterator and has
read that one section only; if it is set after the read of the section of
`lastI`, it returns that error and no iterator; if it is unset after every
read, it returns an iterator and no error. -/
theorem reader_failures_propagate {φ : Type} (env : Env φ) (data : indexData)
    (rd : reader φ) (q : query.Substring)
    (hlen : ngramSize ≤ (env.stringsToLower q.Pattern).length)
    (hL : (env.stringsToLower q.Pattern).length < 2 ^ 32)
    (hall : AllFrequent env data (env.stringsToLower q.Pattern)) :
    ∃ sel firstI lastI,
      selectNgrams (frequencyTable env data (env.stringsToLower q.Pattern)) = some sel ∧
      swapSelected sel = (firstI, lastI) ∧
      ((env.readSectionBlob rd
            (sectionAt env data (env.stringsToLower q.Pattern) firstI)).2.err ≠ none →
        getContentDocIterator env data rd q = some
          { it := none,
            err := (env.readSectionBlob rd
              (sectionAt env data (env.stringsToLower q.Pattern) firstI)).2.err,
            rd := (env.readSectionBlob rd
              (sectionAt env data (env.stringsToLower q.Pattern) firstI)).2,
            reads := [sectionAt env data (env.stringsToLower q.Pattern) firstI] }) ∧
      ((env.readSectionBlob rd
            (sectionAt env data (env.stringsToLower q.Pattern) firstI)).2.err = none →
        firstI ≠ lastI →
        (env.readSectionBlob
            (env.readSectionBlob rd
              (sectionAt env data (env.stringsToLower q.Pattern) firstI)).2
            (sectionAt env data (env.stringsToLower q.Pattern) lastI)).2.err ≠ none →
        getContentDocIterator env data rd q = some
          { it := none,
            err := (env.readSectionBlob
              (env.readSectionBlob rd
                (sectionAt env data (env.stringsToLower q.Pattern) firstI)).2
              (sectionAt env data (env.stringsToLower q.Pattern) lastI)).2.err,
            rd := (env.readSectionBlob
              (env.readSectionBlob rd
                (sectionAt env data (env.stringsToLower q.Pattern) firstI)).2
              (sectionAt env data (env.stringsToLower q.Pattern) lastI)).2,
            reads := [sectionAt env data (env.stringsToLower q.Pattern) firstI,
                      sectionAt env data (env.stringsToLower q.Pattern) lastI] }) ∧
      ((env.readSectionBlob rd
            (sectionAt env data (env.stringsToLower q.Pattern) firstI)).2.err = none →
        (firstI ≠ lastI →
          (env.readSectionBlob
              (env.readSectionBlob rd
                (sectionAt env data (env.stringsToLower q.Pattern) firstI)).2
              (sectionAt env data (env.stringsToLower q.Pattern) lastI)).2.err = none) →
        ∃ out it, getContentDocIterator env data rd q = some out ∧
          out.it = some (.ngramDoc it) ∧ out.err = none) := by
  obtain ⟨f, s, hsel, _, _, _, _, hrun⟩ :=
    getContentDocIterator_planned env data rd q hlen hL hall
  refine ⟨(f, s), min f s, max f s, hsel, swapSelected_eq f s, ?_, ?_, ?_⟩
  · intro h1
    rw [hrun]
    simp only [plannedOutcome]
    rw [if_pos h1]
  · intro h1 hne h2
    rw [hrun]
    simp only [plannedOutcome]
    rw [if_neg (fun h => h h1), if_pos hne, if_pos h2]
  · intro h1 h2
    have herr : (plannedOutcome env data rd q (env.stringsToLower q.Pattern)
        (min f s) (max f s)).err = none := by
      simp only [plannedOutcome]
      rw [if_neg (fun h => h h1)]
      by_cases hne : min f s = max f s
      · rw [if_neg (fun h => h hne)]
      · rw [if_pos hne, if_neg (fun h => h (h2 hne))]
    obtain ⟨first, last, hit⟩ := plannedOutcome_it env data rd q _ _ _ herr
    exact ⟨_, _, hrun, hit, herr⟩

/-- Evaluation of C12 on `abcd` over the sample store with a reader whose index
file is too short for the second section: the error of the second read is
returned and no iterator. -/
theorem reader_failures_propagate_witness :
    ngramSize ≤ (memEnv.stringsToLower abcdQuery.Pattern).length ∧
    (memEnv.stringsToLower abcdQuery.Pattern).length < 2 ^ 32 ∧
    AllFrequent memEnv sampleData (memEnv.stringsToLower abcdQuery.Pattern) ∧
    (∃ sel, selectNgrams (frequencyTable memEnv sampleData
        (memEnv.stringsToLower abcdQuery.Pattern)) = some sel) ∧
    (getContentDocIterator memEnv sampleData shortReader abcdQuery).map
        (fun o => (o.it, o.err, o.reads.length))
      = some (none, some (.other "section out of range"), 2) := by
  refine ⟨by decide, by decide, sample_abcd_allFrequent, ?_, by decide⟩
  obtain ⟨sel, _, _, hsel, _⟩ :=
    reader_failures_propagate memEnv sampleData shortReader abcdQuery (by decide) (by decide)
      sample_abcd_allFrequent
  exact ⟨sel, hsel⟩

/-! ## Covering iterators (C13) -/

/-- A content query for which `getContentDocIterator` returns has a lower-cased
pattern of at least `ngramSize` bytes. -/
theorem length_ge_of_returns {φ : Type} (env : Env φ) (data : indexData) (rd : reader φ)
    (q : query.Substring) {out : Outcome φ}
    (hret : getContentDocIterator env data rd q = some out) :
    ngramSize ≤ (env.stringsToLower q.Pattern).length := by
  by_contra hlt
  unfold getContentDocIterator frequencyScan at hret
  by_cases h1 : (env.stringsToLower q.Pattern).length + 1 < ngramSize
  · simp [h1] at hret
  · have h0 : (env.stringsToLower q.Pattern).length + 1 - ngramSize = 0 := by omega
    have hsel : selectNgrams [] = none := by decide
    simp [h1, h0, frequencyLoop, hsel] at hret

/-- An iterator returned with its `coversContent` flag set comes from a pattern
all of whose n-grams have a non-zero frequency. -/
theorem allFrequent_of_flag {φ : Type} (env : Env φ) (data : indexData) (rd : reader φ)
    (q : query.Substring) {out : Outcome φ} {it : ngramDocIterator}
    (hret : getContentDocIterator env data rd q = some out)
    (hit : out.it = some (.ngramDoc it)) (hcov : it._coversContent = true) :
    AllFrequent env data (env.stringsToLower q.Pattern) := by
  unfold getContentDocIterator at hret
  cases hscan : frequencyScan env data (env.stringsToLower q.Pattern) with
  | none => simp [hscan] at hret
  | some sc =>
    cases sc with
    | zero =>
      simp only [hscan, Option.some.injEq] at hret
      subst hret
      simp only [Option.some.injEq, docIterator.ngramDoc.injEq] at hit
      subst hit
      simp at hcov
    | table fs => exact allFrequent_of_table env data _ hscan

/-- An iterator carried by a planned outcome is the planned iterator. -/
theorem plannedOutcome_it_eq {φ : Type} (env : Env φ) (data : indexData) (rd : reader φ)
    (q : query.Substring) (str : List Nat) (a b : Nat) {it : ngramDocIterator}
    (hit : (plannedOutcome env data rd q str a b).it = some (.ngramDoc it)) :
    ∃ first last, it = plannedIterator data q str a b first last := by
  simp only [plannedOutcome] at hit
  by_cases h1 : (env.readSectionBlob rd (sectionAt env data str a)).2.err = none
  · rw [if_neg (fun h => h h1)] at hit
    by_cases hab : a = b
    · rw [if_neg (fun h => h hab)] at hit
      simp only [Option.some.injEq, docIterator.ngramDoc.injEq] at hit
      exact ⟨_, _, hit.symm⟩
    · rw [if_pos hab] at hit
      by_cases h2 : (env.readSectionBlob (env.readSectionBlob rd (sectionAt env data str a)).2
          (sectionAt env data str b)).2.err = none
      · rw [if_neg (fun h => h h2)] at hit
        simp only [Option.some.injEq, docIterator.ngramDoc.injEq] at hit
        exact ⟨_, _, hit.symm⟩
      · rw [if_pos h2] at hit
        cases hit
  · rw [if_pos h1] at hit
    cases hit

/-- C13: when the content iterator is marked as covering content, the two
selected n-grams span the whole pattern. For a content query whose lower-cased
pattern has `L < 2 ^ 32` bytes and for which `getContentDocIterator` returns an
iterator with `coversContent = true`: the selected positions (after the swap)
are `firstI = 0` and `lastI = L - ngramSize`, they are the iterator's `leftPad`
and `leftPad + distance`, `ngramSize ≤ L ≤ 2 * ngramSize`, and every byte
position `p < L` lies in `[firstI, firstI + ngramSize)` or in
`[lastI, lastI + ngramSize)`. -/
theorem covering_iterator_spans {φ : Type} (env : Env φ) (data : indexData) (rd : reader φ)
    (q : query.Substring) (out : Outcome φ) (it : ngramDocIterator)
    (hL : (env.stringsToLower q.Pattern).length < 2 ^ 32)
    (hret : getContentDocIterator env data rd q = some out)
    (hit : out.it = some (.ngramDoc it)) (hcov : it._coversContent = true) :
    ∃ sel firstI lastI,
      selectNgrams (frequencyTable env data (env.stringsToLower q.Pattern)) = some sel ∧
      swapSelected sel = (firstI, lastI) ∧
      it.leftPad = firstI ∧ it.leftPad + it.distance = lastI ∧
      firstI = 0 ∧ lastI = (env.stringsToLower q.Pattern).length - ngramSize ∧
      ngramSize ≤ (env.stringsToLower q.Pattern).length ∧
      (env.stringsToLower q.Pattern).length ≤ 2 * ngramSize ∧
      ∀ p, p < (env.stringsToLower q.Pattern).length →
        (firstI ≤ p ∧ p < firstI + ngramSize) ∨ (lastI ≤ p ∧ p < lastI + ngramSize) := by
  have hlen := length_ge_of_returns env data rd q hret
  have hall := allFrequent_of_flag env data rd q hret hit hcov
  obtain ⟨f, s, hsel, hf, hs, _, _, hrun⟩ :=
    getContentDocIterator_planned env data rd q hlen hL hall
  rw [hrun, Option.some.injEq] at hret
  subst hret
  obtain ⟨first, last, rfl⟩ := plannedOutcome_it_eq env data rd q _ _ _ hit
  have hc := of_decide_eq_true hcov
  obtain ⟨hd, ha, hb⟩ := hc
  refine ⟨(f, s), min f s, max f s, hsel, swapSelected_eq f s, rfl, ?_, ha, ?_, hlen, ?_, ?_⟩
  · simp only [plannedIterator]
    omega
  · omega
  · omega
  · intro p hp
    omega

/-- Evaluation of C13 on `abc` over the sample store. -/
theorem covering_iterator_spans_witness :
    (memEnv.stringsToLower abcQuery.Pattern).length < 2 ^ 32 ∧
    getContentDocIterator memEnv sampleData sampleReader abcQuery = some abcOutcome ∧
    abcOutcome.it = some (.ngramDoc abcIterator) ∧
    abcIterator._coversContent = true ∧
    (memEnv.stringsToLower abcQuery.Pattern).length ≤ 2 * ngramSize ∧
    abcIterator.leftPad = 0 ∧
    abcIterator.leftPad + abcIterator.distance
      = (memEnv.stringsToLower abcQuery.Pattern).length - ngramSize := by
  refine ⟨by decide, rfl, rfl, rfl, ?_⟩
  obtain ⟨_, fI, lI, _, _, h1, h2, h3, h4, _, h5, _⟩ :=
    covering_iterator_spans memEnv sampleData sampleReader abcQuery abcOutcome abcIterator
      (by decide) rfl rfl rfl
  exact ⟨h5, by rw [h1, h3], by rw [h2, h4]⟩

/-! ## The second selection (C14) -/

/-- C14 (amended): the second selection is taken from the remaining positions
unless these are saturated. For a content query whose lower-cased pattern has at
least `ngramSize` and fewer than `2 ^ 32` bytes, all n-gram frequencies
non-zero, with `f` the first and `s` the second selection of
`getContentDocIterator`: unless `f` is the last n-gram position and every
other position has the frequency `maxUInt32`, the two positions are distinct
(`firstI < lastI` after the swap) and `s` has the least frequency among the
positions other than `f`; in the excepted case `s = f`. -/
theorem second_selection_from_rest {φ : Type} (env : Env φ) (data : indexData)
    (rd : reader φ) (q : query.Substring)
    (hlen : ngramSize ≤ (env.stringsToLower q.Pattern).length)
    (hL : (env.stringsToLower q.Pattern).length < 2 ^ 32)
    (hall : AllFrequent env data (env.stringsToLower q.Pattern)) :
    ∃ f s,
      selectNgrams (frequencyTable env data (env.stringsToLower q.Pattern)) = some (f, s) ∧
      getContentDocIterator env data rd q
        = readSelected env data rd q (env.stringsToLower q.Pattern)
            (swapSelected (f, s)).1 (swapSelected (f, s)).2 ∧
      (¬ RestSaturated env data (env.stringsToLower q.Pattern) f →
        s ≠ f ∧ (swapSelected (f, s)).1 < (swapSelected (f, s)).2 ∧
        ∀ p, p + ngramSize ≤ (env.stringsToLower q.Pattern).length → p ≠ f →
          freqAt env data (env.stringsToLower q.Pattern) s
            ≤ freqAt env data (env.stringsToLower q.Pattern) p) ∧
      (RestSaturated env data (env.stringsToLower q.Pattern) f → s = f) := by
  obtain ⟨f, s, hsel, hf, hs, h1, h2, _⟩ :=
    getContentDocIterator_planned env data rd q hlen hL hall
  have hTlen := frequencyTable_length env data (env.stringsToLower q.Pattern)
  have hle := frequencyTable_le_max env data (env.stringsToLower q.Pattern)
  have hget : ∀ k, k + ngramSize ≤ (env.stringsToLower q.Pattern).length →
      (frequencyTable env data (env.stringsToLower q.Pattern)).getD k 0
        = freqAt env data (env.stringsToLower q.Pattern) k :=
    fun k hk => frequencyTable_getD env data _ (by omega)
  have hfT : f < (frequencyTable env data (env.stringsToLower q.Pattern)).length := by omega
  have hrun : getContentDocIterator env data rd q
      = readSelected env data rd q (env.stringsToLower q.Pattern)
          (swapSelected (f, s)).1 (swapSelected (f, s)).2 := by
    unfold getContentDocIterator
    simp only [frequencyScan_table env data _ hlen hall, hsel]
  refine ⟨f, s, hsel, hrun, ?_, ?_⟩
  · intro hns
    have hsf : s ≠ f := by
      by_cases hp : ∃ p, p + ngramSize ≤ (env.stringsToLower q.Pattern).length ∧ p ≠ f ∧
          freqAt env data (env.stringsToLower q.Pattern) p ≠ maxUInt32
      · obtain ⟨p, hpl, hpf, hpv⟩ := hp
        have hpm := freqAt_le_max env data (env.stringsToLower q.Pattern) p
        exact (second_isRightmostMinOfRest _ hfT hle h2
          ⟨p, by omega, hpf, by rw [hget p hpl]; omega⟩).1.2.1
      · have hlast : f + ngramSize ≠ (env.stringsToLower q.Pattern).length := by
          intro hfl
          apply hns
          refine ⟨hfl, ?_⟩
          intro p hpl hpf
          by_contra hne
          exact hp ⟨p, hpl, hpf, hne⟩
        intro hsf
        subst hsf
        -- the table after the write holds `maxUInt32` at `s` and no less elsewhere
        have hlastpos : AttainsMin
            ((frequencyTable env data (env.stringsToLower q.Pattern)).set s maxUInt32)
            ((env.stringsToLower q.Pattern).length - ngramSize) := by
          refine ⟨by simp; omega, ?_⟩
          intro k hk
          have hk2 : k < (frequencyTable env data (env.stringsToLower q.Pattern)).length := by
            simpa using hk
          have hsk := h2.1.2 k hk
          rw [getD_set_eq _ _ hfT] at hsk
          have hne : (env.stringsToLower q.Pattern).length - ngramSize ≠ s := by omega
          rw [getD_set_ne _ _ hne, hget _ (by omega)]
          have := freqAt_le_max env data (env.stringsToLower q.Pattern)
            ((env.stringsToLower q.Pattern).length - ngramSize)
          omega
        have := h2.2 _ hlastpos
        omega
    refine ⟨hsf, ?_, ?_⟩
    · rw [swapSelected_eq]
      simp only
      omega
    · intro p hp hpf
      have h := second_le_rest _ h2 hsf p (by omega) hpf
      rwa [hget s hs, hget p hp] at h
  · rintro ⟨hfl, hsat⟩
    have hfmin : AttainsMin
        ((frequencyTable env data (env.stringsToLower q.Pattern)).set f maxUInt32) f := by
      refine ⟨by simpa using hfT, ?_⟩
      intro k hk
      have hk2 : k < (frequencyTable env data (env.stringsToLower q.Pattern)).length := by
        simpa using hk
      rw [getD_set_eq _ _ hfT]
      by_cases hkf : k = f
      · rw [hkf, getD_set_eq _ _ hfT]
      · rw [getD_set_ne _ _ hkf, hget k (by omega), hsat k (by omega) hkf]
    have := h2.2 f hfmin
    omega

/-- C14 as stated fails: over a store where the n-gram `abc` has the frequency
`maxUInt32` and `bcd` the frequency 3, the pattern `abcd` has two n-gram
positions, both with non-zero frequency; the first selection is position 1,
the table after the write is all `maxUInt32`, the second selection is position
1 again, and the returned iterator has `leftPad = 1` and `distance = 0`. -/
theorem second_selection_refuted :
    ngramSize + 1 ≤ (memEnv.stringsToLower abcdQuery.Pattern).length ∧
    frequencyScan memEnv saturatedData (memEnv.stringsToLower abcdQuery.Pattern)
      = some (.table [maxUInt32, 3]) ∧
    selectNgrams [maxUInt32, 3] = some (1, 1) ∧
    ¬ ((swapSelected (1, 1)).1 < (swapSelected (1, 1)).2) ∧
    (getContentDocIterator memEnv saturatedData sampleReader abcdQuery).map (fun o => o.it)
      = some (some (.ngramDoc
          { query := abcdQuery, leftPad := 1, rightPad := 0, distance := 0,
            first := [1, 3, 6], last := [1, 3, 6], ends := [10], _coversContent := false })) := by
  refine ⟨by decide, by decide, by decide, by decide, by decide⟩

/-- Evaluation of C14 (amended) on `abcd` over the sample store: the two
selections differ. -/
theorem second_selection_from_rest_witness :
    ngramSize ≤ (memEnv.stringsToLower abcdQuery.Pattern).length ∧
    (memEnv.stringsToLower abcdQuery.Pattern).length < 2 ^ 32 ∧
    AllFrequent memEnv sampleData (memEnv.stringsToLower abcdQuery.Pattern) ∧
    ∃ f s,
      selectNgrams (frequencyTable memEnv sampleData (memEnv.stringsToLower abcdQuery.Pattern))
        = some (f, s) ∧ s ≠ f := by
  refine ⟨by decide, by decide, sample_abcd_allFrequent, ?_⟩
  obtain ⟨f, s, hsel, _, hdist, _⟩ :=
    second_selection_from_rest memEnv sampleData sampleReader abcdQuery (by decide) (by decide)
      sample_abcd_allFrequent
  refine ⟨f, s, hsel, (hdist ?_).1⟩
  rintro ⟨_, hsat⟩
  have hsel2 : selectNgrams
      (frequencyTable memEnv sampleData (memEnv.stringsToLower abcdQuery.Pattern))
      = some (1, 0) := by decide
  rw [hsel2] at hsel
  have hf : f = 1 := by
    have := congrArg (fun o => o.map Prod.fst) hsel
    simpa using this.symm
  subst hf
  have h0 := hsat 0 (by decide) (by decide)
  revert h0
  decide

/-! ## Index safety of the content planner (C16) -/

/-- C16: index safety of the content planner. For a content query whose
lower-cased pattern has `L` bytes, `ngramSize ≤ L < 2 ^ 32`: the frequency
table has `L - ngramSize + 1 ≥ 1` entries; the frequency loop takes no slice
out of range; when the loop fills the table, both calls of `minarg` return an
index strictly below its length, so the write `frequencies[firstI]` and the
slices at the two selected positions are in range; `minarg` also returns an
index below the length on a table whose entries all equal `maxUInt32`; and
`getContentDocIterator` does not panic. -/
theorem content_planner_in_bounds {φ : Type} (env : Env φ) (data : indexData)
    (rd : reader φ) (q : query.Substring)
    (hlen : ngramSize ≤ (env.stringsToLower q.Pattern).length)
    (hL : (env.stringsToLower q.Pattern).length < 2 ^ 32) :
    (frequencyTable env data (env.stringsToLower q.Pattern)).length
      = (env.stringsToLower q.Pattern).length - ngramSize + 1 ∧
    1 ≤ (frequencyTable env data (env.stringsToLower q.Pattern)).length ∧
    frequencyScan env data (env.stringsToLower q.Pattern) ≠ none ∧
    (∀ fs, frequencyScan env data (env.stringsToLower q.Pattern) = some (.table fs) →
      fs.length = (env.stringsToLower q.Pattern).length - ngramSize + 1 ∧
      minarg fs < fs.length ∧
      minarg (fs.set (minarg fs) maxUInt32) < fs.length ∧
      selectNgrams fs = some (minarg fs, minarg (fs.set (minarg fs) maxUInt32)) ∧
      minarg fs + ngramSize ≤ (env.stringsToLower q.Pattern).length ∧
      minarg (fs.set (minarg fs) maxUInt32) + ngramSize
        ≤ (env.stringsToLower q.Pattern).length) ∧
    (∀ k, 1 ≤ k → k ≤ 2 ^ 32 → minarg (List.replicate k maxUInt32) < k) ∧
    ∃ out, getContentDocIterator env data rd q = some out := by
  have hTlen := frequencyTable_length env data (env.stringsToLower q.Pattern)
  have hne : frequencyTable env data (env.stringsToLower q.Pattern) ≠ [] := by
    intro h
    rw [h] at hTlen
    simp at hTlen
    omega
  have hzero : ¬ AllFrequent env data (env.stringsToLower q.Pattern) →
      frequencyScan env data (env.stringsToLower q.Pattern) = some .zero := by
    intro hnot
    unfold AllFrequent at hnot
    push_neg at hnot
    exact frequencyScan_zero env data _ hnot
  refine ⟨by omega, by omega, ?_, ?_, ?_, ?_⟩
  · by_cases hall : AllFrequent env data (env.stringsToLower q.Pattern)
    · rw [frequencyScan_table env data _ hlen hall]
      simp
    · rw [hzero hall]
      simp
  · intro fs hfs
    have hall := allFrequent_of_table env data _ hfs
    rw [frequencyScan_table env data _ hlen hall] at hfs
    simp only [Option.some.injEq, FreqScan.table.injEq] at hfs
    subst hfs
    obtain ⟨f, s, hsel, hf, hs, hfe, hse, _, _⟩ :=
      selectNgrams_spec _ hne (frequencyTable_le_max env data _) (by omega)
    subst hfe
    subst hse
    exact ⟨by omega, hf, hs, hsel, by omega, by omega⟩
  · intro k hk1 hk2
    have h := minarg_spec (List.replicate k maxUInt32)
      (by
        intro h
        have := congrArg List.length h
        simp at this
        omega)
      (fun x hx => by rw [List.eq_of_mem_replicate hx])
      (by simpa using hk2)
    simpa using h.1
  · by_cases hall : AllFrequent env data (env.stringsToLower q.Pattern)
    · obtain ⟨f, s, _, _, _, _, _, hrun⟩ :=
        getContentDocIterator_planned env data rd q hlen hL hall
      exact ⟨_, hrun⟩
    · unfold getContentDocIterator
      simp only [hzero hall]
      exact ⟨_, rfl⟩

/-- Evaluation of C16 on `abcd` over the sample store. -/
theorem content_planner_in_bounds_witness :
    ngramSize ≤ (memEnv.stringsToLower abcdQuery.Pattern).length ∧
    (memEnv.stringsToLower abcdQuery.Pattern).length < 2 ^ 32 ∧
    (frequencyTable memEnv sampleData (memEnv.stringsToLower abcdQuery.Pattern)).length = 2 ∧
    ∃ out, getContentDocIterator memEnv sampleData sampleReader abcdQuery = some out := by
  refine ⟨by decide, by decide, ?_⟩
  obtain ⟨h1, _, _, _, _, h2⟩ :=
    content_planner_in_bounds memEnv sampleData sampleReader abcdQuery (by decide) (by decide)
  exact ⟨by rw [h1]; decide, h2⟩

/-! ## Brute-force filename search and the case-sensitivity flag (C15) -/

/-- The loop of `getBruteForceFileNameDocIterator` run for two queries with
the same pattern on candidate lists that agree but for the flag: both runs
panic, or both return lists that agree but for the flag. -/
theorem bruteForceLoop_agree (data : indexData) (q1 q2 : query.Substring)
    (hp : q1.Pattern = q2.Pattern) (lowerStr : List Nat) :
    ∀ (offs : List Nat) (i last : Nat) (c1 c2 : List candidateMatch),
      List.Forall₂ (AgreeButCase q1 q2) c1 c2 →
      (bruteForceLoop data q1 lowerStr offs i last c1 = none ∧
        bruteForceLoop data q2 lowerStr offs i last c2 = none) ∨
      ∃ r1 r2, bruteForceLoop data q1 lowerStr offs i last c1 = some r1 ∧
        bruteForceLoop data q2 lowerStr offs i last c2 = some r2 ∧
        List.Forall₂ (AgreeButCase q1 q2) r1 r2 := by
  intro offs
  induction offs with
  | nil =>
    intro i last c1 c2 h
    exact Or.inr ⟨c1, c2, rfl, rfl, h⟩
  | cons off offs ih =>
    intro i last c1 c2 h
    simp only [bruteForceLoop]
    cases goSlice data.fileNameContent last off with
    | none => exact Or.inl ⟨rfl, rfl⟩
    | some name =>
      simp only
      by_cases hidx : bytesIndex name lowerStr = -1
      · simp only [hidx, if_true]
        exact ih (i + 1) off c1 c2 h
      · simp only [hidx, if_false]
        apply ih (i + 1) off
        apply List.rel_append h
        refine List.Forall₂.cons ?_ List.Forall₂.nil
        exact ⟨⟨rfl, hp, rfl, rfl, rfl, rfl⟩, rfl, rfl⟩

/-- C15: brute-force filename matching is independent of the query's
case-sensitivity flag. For every store and every two queries with the same
pattern and the same `FileName` flag, the two runs of
`getBruteForceFileNameDocIterator` both panic or both return candidate lists
of the same length whose candidates agree pairwise on `fileName`, `file`,
`offset`, `matchSz`, `substrBytes` and `substrLowered`, each candidate
carrying the `CaseSensitive` flag of its own query; over a well-formed
filename table, with a `toLower` that keeps the length of the pattern and a
pattern shorter than `ngramSize`, both runs return. -/
theorem bruteForce_case_flag_independent {φ : Type} (env : Env φ) (data : indexData)
    (q1 q2 : query.Substring) (hp : q1.Pattern = q2.Pattern) :
    ((getBruteForceFileNameDocIterator env data q1 = none ∧
        getBruteForceFileNameDocIterator env data q2 = none) ∨
      ∃ c1 c2, getBruteForceFileNameDocIterator env data q1 = some (.bruteForce ⟨c1⟩) ∧
        getBruteForceFileNameDocIterator env data q2 = some (.bruteForce ⟨c2⟩) ∧
        c1.length = c2.length ∧ List.Forall₂ (AgreeButCase q1 q2) c1 c2) ∧
    (FileNamesWF data → (env.toLower q1.Pattern).length = q1.Pattern.length →
      q1.Pattern.length < ngramSize →
      getBruteForceFileNameDocIterator env data q1 ≠ none ∧
      getBruteForceFileNameDocIterator env data q2 ≠ none) := by
  constructor
  · unfold getBruteForceFileNameDocIterator
    rw [← hp]
    cases goSlice data.fileNameIndex 1 data.fileNameIndex.length with
    | none => exact Or.inl ⟨rfl, rfl⟩
    | some offs =>
      simp only
      rcases bruteForceLoop_agree data q1 q2 hp (env.toLower q1.Pattern) offs 0 0 [] []
        List.Forall₂.nil with ⟨h1, h2⟩ | ⟨r1, r2, h1, h2, hr⟩
      · rw [h1, h2]
        exact Or.inl ⟨rfl, rfl⟩
      · rw [h1, h2]
        exact Or.inr ⟨r1, r2, rfl, rfl, hr.length_eq, hr⟩
  · intro hwf hlow hshort
    rw [getBruteForce_eq env data q1 hwf hlow hshort,
      getBruteForce_eq env data q2 hwf (by rw [← hp]; exact hlow) (by rw [← hp]; exact hshort)]
    exact ⟨by simp, by simp⟩

/-- Evaluation of C15 on `ab` over the sample store, case-insensitive and
case-sensitive. -/
theorem bruteForce_case_flag_independent_witness :
    abFileQuery.Pattern = abFileQuerySensitive.Pattern ∧
    getBruteForceFileNameDocIterator memEnv sampleData abFileQuery
      = some (.bruteForce ⟨[abFileCandidate]⟩) ∧
    getBruteForceFileNameDocIterator memEnv sampleData abFileQuerySensitive
      = some (.bruteForce ⟨[{ abFileCandidate with caseSensitive := true }]⟩) ∧
    getBruteForceFileNameDocIterator memEnv sampleData abFileQuerySensitive ≠ none := by
  refine ⟨rfl, by decide, by decide, ?_⟩
  exact ((bruteForce_case_flag_independent memEnv sampleData abFileQuery abFileQuerySensitive
    rfl).2 sampleData_fileNamesWF (by decide) (by decide)).2

/-! ## The empty filename pattern (C17) -/

theorem filterMap_eq_map_of_forall {α β : Type} (f : α → Option β) (g : α → β) :
    ∀ l : List α, (∀ x ∈ l, f x = some (g x)) → l.filterMap f = l.map g := by
  intro l
  induction l with
  | nil => intro _; rfl
  | cons a l ih =>
    intro h
    rw [List.filterMap_cons, h a (List.mem_cons_self _ _), List.map_cons,
      ih (fun x hx => h x (List.mem_cons_of_mem _ hx))]

/-- Every file of a well-formed filename table has a name. -/
theorem fileName_some_of_wf (data : indexData) (hwf : FileNamesWF data) {i : Nat}
    (hi : i + 1 < data.fileNameIndex.length) : ∃ name, data.fileName i = some name := by
  have hd1 : data.fileNameIndex.drop i
      = data.fileNameIndex[i] :: data.fileNameIndex.drop (i + 1) :=
    List.drop_eq_getElem_cons (by omega)
  have hd2 : data.fileNameIndex.drop (i + 1)
      = data.fileNameIndex[i + 1] :: data.fileNameIndex.drop (i + 1 + 1) :=
    List.drop_eq_getElem_cons hi
  rw [hd2] at hd1
  exact ⟨_, (fileName_of_drop data hwf hd1).2.2.2.2.1⟩

/-- The empty pattern first occurs at index 0 of every name. -/
theorem firstOccurrence_nil (name : List Nat) : firstOccurrence name [] = some 0 := by
  rw [firstOccurrence_eq_some_iff]
  refine ⟨⟨by simp, by simp⟩, ?_⟩
  intro j hj
  omega

/-- C17: an empty filename pattern matches every file. For a store with `n`
files whose filename table is well formed (`fileNameIndex` of length `n + 1`,
non-decreasing, starting at 0, within `fileNameContent`, `uint32` values, at
most `2 ^ 32` of them), a `toLower` that maps the empty pattern to the empty
pattern, and a query with the empty pattern,
`getBruteForceFileNameDocIterator` returns exactly `n` candidates, one for
each file index `0 .. n-1` in ascending order, each with `fileName = true`,
`offset = 0` and `matchSz = 0`. -/
theorem empty_pattern_matches_every_file {φ : Type} (env : Env φ) (data : indexData)
    (q : query.Substring) (n : Nat) (hwf : FileNamesWF data)
    (hn : data.fileNameIndex.length = n + 1)
    (hp : q.Pattern = []) (hlow : env.toLower [] = []) :
    getBruteForceFileNameDocIterator env data q
      = some (.bruteForce ⟨(List.range n).map (emptyPatternCandidate q)⟩) ∧
    ((List.range n).map (emptyPatternCandidate q)).length = n ∧
    ∀ i, i < n → ((List.range n).map (emptyPatternCandidate q))[i]?
      = some { caseSensitive := q.CaseSensitive, fileName := true, substrBytes := [],
               substrLowered := [], file := i, offset := 0, matchSz := 0 } := by
  have hlow2 : (env.toLower q.Pattern).length = q.Pattern.length := by rw [hp, hlow]
  have hshort : q.Pattern.length < ngramSize := by rw [hp]; exact ngramSize_pos
  refine ⟨?_, by simp, ?_⟩
  · rw [getBruteForce_eq env data q hwf hlow2 hshort]
    unfold bruteForceReference
    rw [hn, Nat.add_sub_cancel]
    rw [filterMap_eq_map_of_forall (referenceCandidateOf env data q) (emptyPatternCandidate q)]
    intro i hi
    have hi2 : i < n := by simpa using hi
    obtain ⟨name, hname⟩ := fileName_some_of_wf data hwf (show i + 1 < _ by omega)
    unfold referenceCandidateOf
    rw [hname]
    simp only [hp, hlow, firstOccurrence_nil]
    simp only [referenceCandidate, emptyPatternCandidate, hp, hlow, List.length_nil]
  · intro i hi
    simp [hi, emptyPatternCandidate]

/-- Evaluation of C17 on the sample store with its two files. -/
theorem empty_pattern_matches_every_file_witness :
    FileNamesWF sampleData ∧ sampleData.fileNameIndex.length = 2 + 1 ∧
    emptyFileQuery.Pattern = [] ∧ memEnv.toLower [] = [] ∧
    getBruteForceFileNameDocIterator memEnv sampleData emptyFileQuery
      = some (.bruteForce ⟨[emptyPatternCandidate emptyFileQuery 0,
          emptyPatternCandidate emptyFileQuery 1]⟩) := by
  refine ⟨sampleData_fileNamesWF, rfl, rfl, rfl, ?_⟩
  rw [(empty_pattern_matches_every_file memEnv sampleData emptyFileQuery 2
    sampleData_fileNamesWF rfl rfl rfl).1]
  rfl

end Zoekt
